import Mathlib

/-!
Verification development for the graph-construction engine of the
Code-Navigator repository (`src/code_parser.py`).

The Python source is shallowly embedded: the `ast` nodes the engine
inspects become inductive types, `networkx.DiGraph` becomes an explicit
association structure with the same update semantics (node keys and
ordered edge pairs are dictionary keys; re-adding a node or an edge
updates the stored attributes in place), and the `CodeParser` class
becomes a record threaded through pure functions.  File-system input is
modelled as the listing that `os.walk` plus `open`/`ast.parse` would
produce: a list of relative paths, each carrying either its parsed
module or the error message that parsing raised.  Exceptions that the
source does not catch are modelled with `Except`.
-/

/-! ## Association-list helpers

Python `dict` semantics: insertion order is preserved, writing to an
existing key updates the value in place, writing a new key appends. -/

/-- Update-or-append for a string-keyed association list (Python dict
assignment `d[k] = v`). -/
def updAList {α : Type} : List (String × α) → String → α → List (String × α)
  | [], k, v => [(k, v)]
  | (k', v') :: t, k, v =>
      if k' == k then (k, v) :: t else (k', v') :: updAList t k v

/-- Lookup in a string-keyed association list (Python `d.get(k)`). -/
def aListGet {α : Type} : List (String × α) → String → Option α
  | [], _ => none
  | (k', v') :: t, k => if k' == k then some v' else aListGet t k

/-! ## String helpers mirroring the Python primitives used -/

/-- Model of Python `str.endswith`. -/
def strEndsWith (s t : String) : Bool :=
  s.data.drop (s.data.length - t.data.length) == t.data

/-- Model of `os.path.basename` for forward-slash relative paths. -/
def basename (f : String) : String :=
  String.mk ((f.data.reverse.takeWhile (fun c => c ≠ '/')).reverse)

/-- Model of `s.split('.')[0]`. -/
def firstSeg (s : String) : String :=
  String.mk (s.data.takeWhile (fun c => c ≠ '.'))

/-! ## The graph

`code_parser.py` line 20 creates `self.graph = nx.DiGraph()`.  A
`DiGraph` keyed on string node identifiers stores at most one edge per
ordered node pair; `add_edge(u, v, label=l)` inserts missing endpoint
nodes with an empty attribute dictionary and overwrites the `label`
attribute of an existing `(u, v)` edge.  `add_node(k, ...)` updates the
attributes of an existing node.  Only the `type` and `display_name`
attributes are ever read back by the engine, so node attributes are
modelled by those two optional fields (absent on implicitly created
endpoints, exactly as a fresh networkx attribute dictionary). -/

structure NodeAttrs where
  typ : Option String
  displayName : Option String
deriving DecidableEq, Repr

structure Graph where
  nodes : List (String × NodeAttrs)
  edges : List (String × String × String)
deriving DecidableEq, Repr

def Graph.empty : Graph := ⟨[], []⟩

def Graph.hasNode (g : Graph) (k : String) : Bool :=
  g.nodes.any (fun p => p.1 == k)

/-- Model of `graph.add_node(k, type=t, display_name=d)`. -/
def Graph.addNode (g : Graph) (k t d : String) : Graph :=
  { g with nodes := updAList g.nodes k ⟨some t, some d⟩ }

/-- Insert a node key with an empty attribute dictionary if absent
(what `add_edge` does to missing endpoints). -/
def Graph.ensureNode (g : Graph) (k : String) : Graph :=
  if g.hasNode k then g else { g with nodes := g.nodes ++ [(k, ⟨none, none⟩)] }

/-- Update-or-append on the edge list, keyed by the ordered pair. -/
def updEdges : List (String × String × String) → String → String → String →
    List (String × String × String)
  | [], u, v, l => [(u, v, l)]
  | (u', v', l') :: t, u, v, l =>
      if u' == u && v' == v then (u, v, l) :: t
      else (u', v', l') :: updEdges t u v l

/-- Model of `graph.add_edge(u, v, label=l)` on a `DiGraph`. -/
def Graph.addEdge (g : Graph) (u v l : String) : Graph :=
  let g1 := (g.ensureNode u).ensureNode v
  { g1 with edges := updEdges g1.edges u v l }

/-- Label of the edge stored for the ordered pair `(u, v)`, if any. -/
def Graph.edgeLabel (g : Graph) (u v : String) : Option String :=
  (g.edges.find? (fun e => e.1 == u && e.2.1 == v)).map (fun e => e.2.2)

/-- Every ordered pair occurs at most once in the edge list (the
representation invariant a `DiGraph` enforces by construction). -/
def EdgeKeysUnique (g : Graph) : Prop :=
  g.edges.Pairwise (fun e e' => (e.1, e.2.1) ≠ (e'.1, e'.2.1))

/-! ## The Python AST fragment the engine inspects

Constructors follow the `ast` node classes.  `PExpr.name` carries
whether its context is `Load` (the only context test the source makes,
`code_parser.py` line 370).  `PExpr.constant` carries the literal text
that `ast.unparse` would render.  Decorators, keywords and the other
node classes the engine never matches on are not represented. -/

inductive PExpr where
  | name (id : String) (isLoad : Bool)
  | call (func : PExpr) (args : List PExpr)
  | attribute (value : PExpr) (attrName : String)
  | subscript (value : PExpr) (slice : PExpr)
  | constant (text : String)

inductive PStmt where
  | assign (targets : List PExpr) (value : PExpr)
  | augAssign (target : PExpr) (value : PExpr)
  | exprStmt (value : PExpr)
  | ret (value : Option PExpr)
  | ifStmt (test : PExpr) (body orelse : List PStmt)
  | passStmt

structure PArg where
  arg : String
  annotation : Option PExpr

structure FunctionDef where
  name : String
  args : List PArg
  body : List PStmt
  returns : Option PExpr

/-- Statements of a class body; the engine only distinguishes
`FunctionDef` children (methods) from everything else. -/
inductive ClassItem where
  | method (f : FunctionDef)
  | other (s : PStmt)

structure ClassDef where
  name : String
  bases : List PExpr
  body : List ClassItem

/-- Top-level statements of a module, as `tree.body` presents them to
`_index_functions_and_imports`.  Import aliases are `(name, asname)`
pairs as in `ast.alias`.  Classes are modelled at top level, which is
where `ast.walk(tree)` finds them for every file of this repository. -/
inductive TopItem where
  | funcDef (f : FunctionDef)
  | classDef (c : ClassDef)
  | importStmt (names : List (String × Option String))
  | importFrom (module : Option String) (names : List (String × Option String))
  | other (s : PStmt)

abbrev PyModule := List TopItem

/-- One file of the scanned tree: its path relative to the root and the
outcome `ast.parse` produces on its bytes (`Except.error` carries the
exception text of a syntax or encoding error). -/
structure RepoFile where
  path : String
  parsed : Except String PyModule

/-! ## Structural sizes (fuel for the breadth-first walk) -/

mutual
def sizeE : PExpr → Nat
  | .name _ _ => 1
  | .call f args => 1 + sizeE f + sizeEs args
  | .attribute v _ => 1 + sizeE v
  | .subscript v s => 1 + sizeE v + sizeE s
  | .constant _ => 1
def sizeEs : List PExpr → Nat
  | [] => 0
  | e :: t => sizeE e + sizeEs t
end

mutual
def sizeS : PStmt → Nat
  | .assign targets value => 1 + sizeEs targets + sizeE value
  | .augAssign t v => 1 + sizeE t + sizeE v
  | .exprStmt v => 1 + sizeE v
  | .ret v => 1 + (match v with | some e => sizeE e | none => 0)
  | .ifStmt t b o => 1 + sizeE t + sizeSs b + sizeSs o
  | .passStmt => 1
def sizeSs : List PStmt → Nat
  | [] => 0
  | s :: t => sizeS s + sizeSs t
end

def sizeArg (a : PArg) : Nat :=
  1 + (match a.annotation with | some e => sizeE e | none => 0)

def sizeArgs : List PArg → Nat
  | [] => 0
  | a :: t => sizeArg a + sizeArgs t

def sizeF (f : FunctionDef) : Nat :=
  1 + (1 + sizeArgs f.args) + sizeSs f.body +
    (match f.returns with | some e => sizeE e | none => 0)

/-! ## Breadth-first traversal (`ast.walk`)

`ast.walk` yields nodes from a FIFO queue seeded with the root: it pops
a node, yields it, and appends its children, so nodes come out in
breadth-first order, not source-text order.  `WalkNode` is the sum of
node shapes reachable when walking a `FunctionDef` (the only roots the
engine walks): statements, expressions, the `arguments` node, and
individual `arg` nodes. -/

inductive WalkNode where
  | pstmt (s : PStmt)
  | pexpr (e : PExpr)
  | pargs (l : List PArg)
  | parg (a : PArg)
  | pfunc (f : FunctionDef)

/-- Children of a node in `ast.iter_child_nodes` field order. -/
def children : WalkNode → List WalkNode
  | .pfunc f =>
      .pargs f.args :: (f.body.map .pstmt ++
        (match f.returns with | some r => [.pexpr r] | none => []))
  | .pargs l => l.map .parg
  | .parg a => (match a.annotation with | some e => [.pexpr e] | none => [])
  | .pstmt s =>
      match s with
      | .assign targets value => targets.map .pexpr ++ [.pexpr value]
      | .augAssign t v => [.pexpr t, .pexpr v]
      | .exprStmt v => [.pexpr v]
      | .ret v => (match v with | some e => [.pexpr e] | none => [])
      | .ifStmt t b o => .pexpr t :: (b.map .pstmt ++ o.map .pstmt)
      | .passStmt => []
  | .pexpr e =>
      match e with
      | .name _ _ => []
      | .call f args => .pexpr f :: args.map .pexpr
      | .attribute v _ => [.pexpr v]
      | .subscript v s => [.pexpr v, .pexpr s]
      | .constant _ => []

def wsize : WalkNode → Nat
  | .pstmt s => sizeS s
  | .pexpr e => sizeE e
  | .pargs l => 1 + sizeArgs l
  | .parg a => sizeArg a
  | .pfunc f => sizeF f

/-- FIFO traversal with explicit fuel; one unit of fuel is spent per
popped node, and the total node count `wsize` of the root bounds the
number of pops, so `walk` below never exhausts its fuel early. -/
def walkAux : Nat → List WalkNode → List WalkNode
  | 0, _ => []
  | _ + 1, [] => []
  | n + 1, x :: rest => x :: walkAux n (rest ++ children x)

/-- Model of `ast.walk(root)` for a function subtree. -/
def walk (root : WalkNode) : List WalkNode :=
  walkAux (wsize root) [root]

/-! ## Parser state

Fields mirror the attributes of `CodeParser.__init__`; `builtin_names`
(`set(dir(builtins))`) depends on the Python environment and is taken
as an input of the build. -/

structure CodeParser where
  repoFiles : List String
  functionsByFile : List (String × List (String × FunctionDef))
  importsByFile : List (String × List (String × String))
  fromImportsByFile : List (String × List (String × String))
  builtinNames : List String
  graph : Graph

/-- Reading and re-parsing a file of the tree (`open` + `ast.parse`):
the outcome is fixed by the file bytes, so every re-parse of `rel`
yields the entry recorded in the listing. -/
def readParsed (listing : List RepoFile) (rel : String) : Except String PyModule :=
  match listing.find? (fun f => f.path == rel) with
  | some f => f.parsed
  | none => .error ("No such file: " ++ rel)

/-- Model of `CodeParser._collect_files`: walk the tree, keep `.py`
files, record them in `repo_files` and add a file node for each. -/
def collectFiles (builtins : List String) (listing : List RepoFile) : CodeParser :=
  listing.foldl
    (fun p f =>
      if strEndsWith f.path ".py" then
        { p with repoFiles := p.repoFiles ++ [f.path],
                 graph := p.graph.addNode f.path "file" f.path }
      else p)
    ⟨[], [], [], [], builtins, Graph.empty⟩

/-- Per-file symbol tables built from `tree.body` by
`_index_functions_and_imports`: top-level function definitions,
`import module as alias` bindings (alias to first path segment), and
`from module import name as alias` bindings. -/
def indexModule (tree : PyModule) :
    List (String × FunctionDef) × List (String × String) × List (String × String) :=
  tree.foldl
    (fun acc item =>
      match item with
      | .funcDef f => (updAList acc.1 f.name f, acc.2.1, acc.2.2)
      | .importStmt names =>
          (acc.1,
           names.foldl
             (fun imps nm =>
               let mod := firstSeg nm.1
               let asname := nm.2.getD mod
               updAList imps asname mod)
             acc.2.1,
           acc.2.2)
      | .importFrom module names =>
          (acc.1, acc.2.1,
           match module with
           | some m =>
               let mod := firstSeg m
               names.foldl
                 (fun imps nm => updAList imps (nm.2.getD nm.1) mod)
                 acc.2.2
           | none => acc.2.2)
      | _ => acc)
    ([], [], [])

/-- Model of `_index_functions_and_imports`: files that fail to parse
are skipped (the failure is printed and the loop continues), parsed
files get their three symbol tables. -/
def indexFunctionsAndImports (listing : List RepoFile) (p : CodeParser) : CodeParser :=
  p.repoFiles.foldl
    (fun p rel =>
      match readParsed listing rel with
      | .error _ => p
      | .ok tree =>
          let tables := indexModule tree
          { p with
              functionsByFile := updAList p.functionsByFile rel tables.1,
              importsByFile := updAList p.importsByFile rel tables.2.1,
              fromImportsByFile := updAList p.fromImportsByFile rel tables.2.2 })
    p

/-! ## Variable, type and method-call tracking -/

/-- Loop body of `_track_variables`: a plain assignment to a bare name
creates the variable node `<context>::name` and a `defines_var` edge,
an augmented assignment the same node and a `mutates_var` edge, and a
name read in `Load` context a `uses_var` edge back to the context, only
when the variable node already exists. -/
def trackVarStep (ctx : String) (g : Graph) (w : WalkNode) : Graph :=
  match w with
  | .pstmt (.assign targets _) =>
      targets.foldl
        (fun g t =>
          match t with
          | .name v _ =>
              let varUid := ctx ++ "::" ++ v
              (g.addNode varUid "variable" v).addEdge ctx varUid "defines_var"
          | _ => g)
        g
  | .pstmt (.augAssign (.name v _) _) =>
      let varUid := ctx ++ "::" ++ v
      (g.addNode varUid "variable" v).addEdge ctx varUid "mutates_var"
  | .pexpr (.name v true) =>
      let varUid := ctx ++ "::" ++ v
      if g.hasNode varUid then g.addEdge varUid ctx "uses_var" else g
  | _ => g

/-- Model of `_track_variables(node, context_uid)`: fold the step over
the breadth-first walk of the function subtree. -/
def trackVariables (g : Graph) (node : FunctionDef) (ctx : String) : Graph :=
  (walk (.pfunc node)).foldl (trackVarStep ctx) g

/-! Rendering used by the `ast.unparse` fallback of `_get_type_name`
(the source guards it with `hasattr`; it is present on the Pythons this
repository targets). -/
mutual
def unparseE : PExpr → String
  | .name id _ => id
  | .call f args => unparseE f ++ "(" ++ unparseList args ++ ")"
  | .attribute v a => unparseE v ++ "." ++ a
  | .subscript v s => unparseE v ++ "[" ++ unparseE s ++ "]"
  | .constant t => t
def unparseList : List PExpr → String
  | [] => ""
  | [e] => unparseE e
  | e :: t => unparseE e ++ ", " ++ unparseList t
end

/-- Model of `_get_type_name`: render an annotation to its text. -/
def getTypeName : PExpr → String
  | .name id _ => id
  | .subscript v s => getTypeName v ++ "[" ++ getTypeName s ++ "]"
  | .attribute (.name vid _) a => vid ++ "." ++ a
  | .attribute _ a => a
  | .call f args => unparseE (.call f args)
  | .constant t => t

/-- Model of `_track_types`: one `param_type` edge per annotated
parameter and a `return_type` edge for an annotated return, each to a
type node keyed by the rendered annotation text. -/
def trackTypes (g : Graph) (node : FunctionDef) (funcUid : String) : Graph :=
  let g :=
    node.args.foldl
      (fun g a =>
        match a.annotation with
        | some ann =>
            let typeName := getTypeName ann
            (g.addNode typeName "type" typeName).addEdge funcUid typeName "param_type"
        | none => g)
      g
  match node.returns with
  | some r =>
      let typeName := getTypeName r
      (g.addNode typeName "type" typeName).addEdge funcUid typeName "return_type"
  | none => g

/-- Model of `_track_method_calls`: a call whose function is an
attribute on the bare name `self` or `super` binds to
`<class-uid>::<attr>` when that node exists.  Note the receiver of
`super().m()` is an `ast.Call`, not an `ast.Name`, so only `self.m()`
(and the unidiomatic `super.m`) can match here. -/
def trackMethodCalls (g : Graph) (node : FunctionDef) (classUid funcUid : String) : Graph :=
  (walk (.pfunc node)).foldl
    (fun g w =>
      match w with
      | .pexpr (.call (.attribute (.name recv _) m) _) =>
          if recv == "self" || recv == "super" then
            let calledUid := classUid ++ "::" ++ m
            if g.hasNode calledUid then g.addEdge funcUid calledUid "calls" else g
          else g
      | _ => g)
    g

/-! ## Graph builder passes -/

/-- Model of `_add_import_edge`: link `src_file` to every repo file
whose basename is the module name plus `.py`. -/
def addImportEdge (repoFiles : List String) (g : Graph) (srcFile module : String) : Graph :=
  repoFiles.foldl
    (fun g f =>
      if basename f == module ++ ".py" then g.addEdge srcFile f "file_import" else g)
    g

/-- Model of `_add_function_nodes_and_import_edges`.  Note that the
import-edge loops sit inside the loop over the file's top-level
functions, and that `_track_variables` receives `rel` — the file path —
as its context. -/
def addFunctionNodesAndImportEdges (p : CodeParser) : CodeParser :=
  { p with
      graph :=
        p.repoFiles.foldl
          (fun g rel =>
            let funcs := (aListGet p.functionsByFile rel).getD []
            funcs.foldl
              (fun g fpair =>
                let fname := fpair.1
                let fnode := fpair.2
                let uid := rel ++ "::" ++ fname
                let g := g.addNode uid "function" (fname ++ "()")
                let g := g.addEdge rel uid "defined_in"
                let g := trackVariables g fnode rel
                let g := trackTypes g fnode uid
                let g :=
                  ((aListGet p.importsByFile rel).getD []).foldl
                    (fun g imp => addImportEdge p.repoFiles g rel imp.2) g
                ((aListGet p.fromImportsByFile rel).getD []).foldl
                  (fun g imp => addImportEdge p.repoFiles g rel imp.2) g)
              g)
          p.graph }

/-- Base-class display text extracted by
`getattr(b, "id", getattr(b, "attr", ""))`. -/
def baseName : PExpr → String
  | .name id _ => id
  | .attribute _ a => a
  | _ => ""

/-- Inheritance loop of `_add_class_nodes_and_edges`: for each declared
base name, scan the node set of the graph as it stands and add an
`inherits` edge to every node of type `class` whose display name equals
the base name. -/
def addInheritsEdges (g : Graph) (classUid : String) (bases : List String) : Graph :=
  bases.foldl
    (fun g base =>
      g.nodes.foldl
        (fun g2 kv =>
          if kv.2.typ == some "class" && kv.2.displayName == some base then
            g2.addEdge classUid kv.1 "inherits"
          else g2)
        g)
    g

def methodsOf (c : ClassDef) : List FunctionDef :=
  c.body.filterMap (fun item => match item with | .method f => some f | _ => none)

def classesOf (tree : PyModule) : List ClassDef :=
  tree.filterMap (fun item => match item with | .classDef c => some c | _ => none)

def moduleFunctions (tree : PyModule) : List FunctionDef :=
  tree.filterMap (fun item => match item with | .funcDef f => some f | _ => none)

/-- Class-processing body of `_add_class_nodes_and_edges` for one
class: class node, `defined_in` edge, inheritance resolution against
the graph built so far, then method nodes with their `has_method`
edges, variable tracking (again with `rel` as context), type tracking
and self/super call tracking. -/
def processClass (g : Graph) (rel : String) (c : ClassDef) : Graph :=
  let classUid := rel ++ "::" ++ c.name
  let bases := c.bases.map baseName
  let g := g.addNode classUid "class" c.name
  let g := g.addEdge rel classUid "defined_in"
  let g := addInheritsEdges g classUid bases
  (methodsOf c).foldl
    (fun g child =>
      let funcUid := rel ++ "::" ++ c.name ++ "::" ++ child.name
      let g := g.addNode funcUid "function" (child.name ++ "()")
      let g := g.addEdge classUid funcUid "has_method"
      let g := trackVariables g child rel
      let g := trackTypes g child funcUid
      trackMethodCalls g child classUid funcUid)
    g

/-- Model of `_add_class_nodes_and_edges`: every file is re-opened and
re-parsed with no exception handler, so a file that failed to parse
raises out of the whole build. -/
def addClassNodesAndEdges (listing : List RepoFile) (p : CodeParser) :
    Except String CodeParser := do
  let g ←
    p.repoFiles.foldlM
      (fun g rel => do
        let tree ← readParsed listing rel
        pure ((classesOf tree).foldl (fun g c => processClass g rel c) g))
      p.graph
  pure { p with graph := g }

/-! ## Call resolution -/

/-- Model of `_match_module_to_file`: first repo file whose basename is
the module name plus `.py`. -/
def matchModuleToFile (p : CodeParser) (module : String) : Option String :=
  p.repoFiles.find? (fun f => basename f == module ++ ".py")

/-- Model of `_resolve_callee`.  Case 1 handles a bare-name call with
the precedence builtin, same-file top-level function, `from`-import.
Case 2 handles `m.f()` for a bound import alias `m`.  The source also
contains a third `elif` for `self`/`super` whose guard is identical to
the second one, so it can never be reached; it is therefore not part of
the observable behaviour embedded here. -/
def resolveCallee (p : CodeParser) (e : PExpr) (rel : String)
    (_currentClass : Option String) : Option String :=
  match e with
  | .call (.name nm _) _ =>
      if p.builtinNames.contains nm then none
      else if (aListGet ((aListGet p.functionsByFile rel).getD []) nm).isSome then
        some (rel ++ "::" ++ nm)
      else
        match aListGet ((aListGet p.fromImportsByFile rel).getD []) nm with
        | some mod =>
            match matchModuleToFile p mod with
            | some matched => some (matched ++ "::" ++ nm)
            | none => none
        | none => none
  | .call (.attribute (.name owner _) attr) _ =>
      match aListGet ((aListGet p.importsByFile rel).getD []) owner with
      | some mod =>
          match matchModuleToFile p mod with
          | some matched => some (matched ++ "::" ++ attr)
          | none => none
      | none => none
  | _ => none

/-- Call expressions of a function subtree in walk order. -/
def walkCalls (fnode : FunctionDef) : List PExpr :=
  (walk (.pfunc fnode)).filterMap
    (fun w =>
      match w with
      | .pexpr (.call f args) => some (.call f args)
      | _ => none)

/-- Per-call body of `_resolve_function_calls`: resolve, then add a
`calls` edge only when the resolved callee is a node of the graph. -/
def resolveCallAndAdd (p : CodeParser) (g : Graph) (callerUid : String)
    (e : PExpr) (rel : String) (currentClass : Option String) : Graph :=
  match resolveCallee p e rel currentClass with
  | some calleeUid =>
      if g.hasNode calleeUid then g.addEdge callerUid calleeUid "calls" else g
  | none => g

/-- Model of `_resolve_function_calls`: first every top-level function
of every indexed file, then — after re-parsing each file, again without
an exception handler — every method of every class. -/
def resolveFunctionCalls (listing : List RepoFile) (p : CodeParser) :
    Except String CodeParser := do
  let g :=
    p.functionsByFile.foldl
      (fun g relFuncs =>
        relFuncs.2.foldl
          (fun g fpair =>
            let callerUid := relFuncs.1 ++ "::" ++ fpair.1
            (walkCalls fpair.2).foldl
              (fun g ce => resolveCallAndAdd p g callerUid ce relFuncs.1 none)
              g)
          g)
      p.graph
  let g ←
    p.repoFiles.foldlM
      (fun g rel => do
        let tree ← readParsed listing rel
        pure
          ((classesOf tree).foldl
            (fun g c =>
              (methodsOf c).foldl
                (fun g child =>
                  let callerUid := rel ++ "::" ++ c.name ++ "::" ++ child.name
                  (walkCalls child).foldl
                    (fun g ce => resolveCallAndAdd p g callerUid ce rel (some c.name))
                    g)
                g)
            g))
      g
  pure { p with graph := g }

/-- Model of `CodeParser.parse`: the full build.  The `crossrefs`
grouping computed at the end reads the graph without changing it and is
not part of the returned graph, so it is omitted. -/
def parse (builtins : List String) (listing : List RepoFile) : Except String Graph := do
  let p := collectFiles builtins listing
  let p := indexFunctionsAndImports listing p
  let p := addFunctionNodesAndImportEdges p
  let p ← addClassNodesAndEdges listing p
  let p ← resolveFunctionCalls listing p
  pure p.graph

/-! ## Query: bounded call chains -/

/-- Successors of `node` along `calls`-labelled edges, in edge order
(`graph.out_edges(node)` filtered on the label). -/
def callsSucc (g : Graph) (u : String) : List String :=
  (g.edges.filter (fun e => e.1 == u && e.2.2 == "calls")).map (fun e => e.2.1)

/-- Recursion of `find_call_chain`: the source counts levels up from 1
and stops once `level > depth`, so the fuel here is the number of hop
levels that remain. -/
def findCallChainAux (g : Graph) : Nat → String → List (String × String)
  | 0, _ => []
  | d + 1, u => (callsSucc g u).flatMap (fun c => (u, c) :: findCallChainAux g d c)

/-- Model of `find_call_chain(func_uid, depth)`. -/
def findCallChain (g : Graph) (funcUid : String) (depth : Nat) : List (String × String) :=
  findCallChainAux g depth funcUid

/-! ## Claim-side definitions

Definitions in this section express the properties the specification
claims, for comparison with the embedded engine. -/

/-- Last two entries of a path, as a `(caller, callee)` pair. -/
def lastPair : List String → Option (String × String)
  | [] => none
  | [_] => none
  | [a, b] => some (a, b)
  | _ :: b :: c :: t => lastPair (b :: c :: t)

/-- All paths along `calls`-labelled edges that start at `u` and take
at most `d` hops, in depth-first order. -/
def callPathsLe (g : Graph) : Nat → String → List (List String)
  | 0, u => [[u]]
  | d + 1, u =>
      [u] :: (callsSucc g u).flatMap
        (fun c => (callPathsLe g d c).map (fun p => u :: p))

/-- Does this walk node assign (plainly or augmented) the bare name
`v`?  These are exactly the nodes for which `_track_variables` creates
the variable node of `v`. -/
def isTouch (v : String) (w : WalkNode) : Bool :=
  match w with
  | .pstmt (.assign targets _) =>
      targets.any (fun t => match t with | .name u _ => u == v | _ => false)
  | .pstmt (.augAssign (.name u _) _) => u == v
  | _ => false

/-- Is this walk node a read (`Load` context) of the bare name `v`? -/
def isUse (v : String) (w : WalkNode) : Bool :=
  match w with
  | .pexpr (.name u true) => u == v
  | _ => false

/-- Some assignment of `v` occurs strictly before some read of `v` in
the given traversal order. -/
def touchThenUse (v : String) : List WalkNode → Bool
  | [] => false
  | w :: t => if isTouch v w then t.any (isUse v) else touchThenUse v t

/-- Is `n` the key of a node of type `class` whose display name equals
`base`, in the node set of `g`? -/
def classNodeMatches (g : Graph) (n base : String) : Bool :=
  g.nodes.any
    (fun kv => kv.1 == n && (kv.2.typ == some "class" && kv.2.displayName == some base))

/-! ## Concrete inputs used by the closed theorems

A small stand-in for `set(dir(builtins))`; the build receives the
builtin-name set as an input, so any environment set can be plugged
in. -/

def pyBuiltinsDemo : List String := ["len", "print", "str", "super", "range"]

/-- Python source `def f(): pass`. -/
def fdefPass : FunctionDef := ⟨"f", [], [.passStmt], none⟩

/-- A tree with one well-formed file and one file whose parse raises
`invalid syntax`. -/
def listingParseFail : List RepoFile :=
  [⟨"a.py", .ok [.funcDef fdefPass]⟩, ⟨"b.py", .error "invalid syntax"⟩]

/-- Python source `def f(): x = 1`. -/
def fdefAssignX1 : FunctionDef := ⟨"f", [], [.assign [.name "x" false] (.constant "1")], none⟩

/-- Python source `def g(): x = 2`. -/
def fdefAssignX2 : FunctionDef := ⟨"g", [], [.assign [.name "x" false] (.constant "2")], none⟩

/-- One file with two top-level functions that each assign the bare
name `x`. -/
def listingTwoFuncsSameVar : List RepoFile :=
  [⟨"a.py", .ok [.funcDef fdefAssignX1, .funcDef fdefAssignX2]⟩]

/-- Python source `def m(self): pass`. -/
def methodPass : FunctionDef := ⟨"m", [⟨"self", none⟩], [.passStmt], none⟩

/-- Python source `class B: def m(self): pass`. -/
def classB : ClassDef := ⟨"B", [], [.method methodPass]⟩

/-- Python source `def m(self): super().m()`: the callee is an
attribute on the result of the call `super()`. -/
def methodSuperCall : FunctionDef :=
  ⟨"m", [⟨"self", none⟩],
   [.exprStmt (.call (.attribute (.call (.name "super" true) []) "m") [])], none⟩

/-- Python source `class D(B): def m(self): super().m()`. -/
def classD : ClassDef := ⟨"D", [.name "B" false], [.method methodSuperCall]⟩

/-- One file declaring `B` and then `D(B)` whose method `m` calls
`super().m()`. -/
def listingSuperCall : List RepoFile := [⟨"a.py", .ok [.classDef classB, .classDef classD]⟩]

/-- Python source `def h(): x = 1; x += 2` — a plain then an augmented
assignment to the same bare name. -/
def fdefDefineThenAugment : FunctionDef :=
  ⟨"h", [],
   [.assign [.name "x" false] (.constant "1"), .augAssign (.name "x" false) (.constant "2")],
   none⟩

/-- Python source `def f(): y = x; x = 1` — the read of `x` textually
precedes the assignment to `x`. -/
def fdefReadBeforeDef : FunctionDef :=
  ⟨"f", [],
   [.assign [.name "y" false] (.name "x" true), .assign [.name "x" false] (.constant "1")],
   none⟩

/-- Python source `def f(x: int) -> int: pass` — the parameter and the
return annotation render to the same text. -/
def fdefParamRetInt : FunctionDef :=
  ⟨"f", [⟨"x", some (.name "int" true)⟩], [.passStmt], some (.name "int" true)⟩

def listingParamRetInt : List RepoFile := [⟨"a.py", .ok [.funcDef fdefParamRetInt]⟩]

/-- Python source `def f(x: int) -> str: return str(x)`. -/
def fdefParamIntRetStr : FunctionDef :=
  ⟨"f", [⟨"x", some (.name "int" true)⟩],
   [.ret (some (.call (.name "str" true) [.name "x" true]))], some (.name "str" true)⟩

def listingParamIntRetStr : List RepoFile := [⟨"a.py", .ok [.funcDef fdefParamIntRetStr]⟩]

/-- Base class file walked before the subclass file. -/
def listingBaseFirst : List RepoFile :=
  [⟨"b.py", .ok [.classDef ⟨"B", [], []⟩]⟩,
   ⟨"d.py", .ok [.classDef ⟨"D", [.name "B" false], []⟩]⟩]

/-- Base class file walked after the subclass file. -/
def listingBaseLast : List RepoFile :=
  [⟨"d.py", .ok [.classDef ⟨"D", [.name "B" false], []⟩]⟩,
   ⟨"b.py", .ok [.classDef ⟨"B", [], []⟩]⟩]

/-- A file with an import whose module has a basename match in the
tree but with no top-level function, plus the matched file. -/
def listingImportNoFuncs : List RepoFile :=
  [⟨"a.py", .ok [.importStmt [("b", none)], .classDef ⟨"C", [], []⟩]⟩,
   ⟨"b.py", .ok []⟩]

/-- A parser state exercising every branch of bare-name call
resolution: `len` is a builtin, `f` a same-file top-level function,
`h` bound by `from b import h` with `b.py` in the tree, and `q`
nothing at all. -/
def cpDemo : CodeParser :=
  { repoFiles := ["a.py", "b.py"],
    functionsByFile := [("a.py", [("f", fdefPass)])],
    importsByFile := [],
    fromImportsByFile := [("a.py", [("h", "b")])],
    builtinNames := ["len"],
    graph := (Graph.empty.addNode "a.py::f" "function" "f()").addNode "b.py::h" "function" "h()" }

/-! ## Helper lemmas about the dictionary and graph primitives -/

theorem mem_updAList_self {α : Type} (l : List (String × α)) (k : String) (v : α) :
    (k, v) ∈ updAList l k v := by
  induction l with
  | nil => simp [updAList]
  | cons hd t ih =>
      by_cases hk : hd.1 == k
      · simp [updAList, hk]
      · simp only [updAList, hk, Bool.false_eq_true, if_neg, not_false_iff]
        exact List.mem_cons_of_mem _ ih

theorem mem_updAList_cases {α : Type} (l : List (String × α)) (k : String) (v : α)
    (p : String × α) (hp : p ∈ updAList l k v) : p ∈ l ∨ p = (k, v) := by
  induction l with
  | nil => simpa [updAList] using hp
  | cons hd t ih =>
      by_cases hk : hd.1 == k
      · simp only [updAList, hk, if_pos] at hp
        rcases List.mem_cons.1 hp with h1 | h1
        · exact Or.inr h1
        · exact Or.inl (List.mem_cons_of_mem _ h1)
      · simp only [updAList, hk, Bool.false_eq_true, if_neg, not_false_iff] at hp
        rcases List.mem_cons.1 hp with h1 | h1
        · exact Or.inl (h1 ▸ List.mem_cons_self _ _)
        · rcases ih h1 with h2 | h2
          · exact Or.inl (List.mem_cons_of_mem _ h2)
          · exact Or.inr h2

theorem mem_updAList_of_mem_ne {α : Type} (l : List (String × α)) (k : String) (v : α)
    (p : String × α) (hp : p ∈ l) (hne : p.1 ≠ k) : p ∈ updAList l k v := by
  induction l with
  | nil => simp at hp
  | cons hd t ih =>
      by_cases hk : hd.1 == k
      · rcases List.mem_cons.1 hp with h1 | h1
        · exact absurd (by simpa [h1, beq_iff_eq] using hk) hne
        · simp only [updAList, hk, if_pos]
          exact List.mem_cons_of_mem _ h1
      · simp only [updAList, hk, Bool.false_eq_true, if_neg, not_false_iff]
        rcases List.mem_cons.1 hp with h1 | h1
        · exact h1 ▸ List.mem_cons_self _ _
        · exact List.mem_cons_of_mem _ (ih h1)

theorem aListGet_updAList_self {α : Type} (l : List (String × α)) (k : String) (v : α) :
    aListGet (updAList l k v) k = some v := by
  induction l with
  | nil => simp [updAList, aListGet]
  | cons h t ih =>
      by_cases hk : h.1 == k
      · simp [updAList, hk, aListGet]
      · simp [updAList, hk, aListGet, ih]

theorem aListGet_updAList_ne {α : Type} (l : List (String × α)) (k k' : String) (v : α)
    (h : k' ≠ k) : aListGet (updAList l k v) k' = aListGet l k' := by
  induction l with
  | nil =>
      simp only [updAList, aListGet]
      rw [if_neg (by simp [beq_iff_eq]; intro hkk; exact h hkk.symm)]
  | cons hd t ih =>
      by_cases hk : hd.1 == k
      · have hd1 : hd.1 = k := by simpa [beq_iff_eq] using hk
        simp only [updAList, hk, if_pos]
        simp only [aListGet]
        rw [if_neg (by simp [beq_iff_eq]; intro hkk; exact h hkk.symm),
          if_neg (by simp [beq_iff_eq, hd1]; intro hkk; exact h hkk.symm)]
      · simp only [updAList, hk, Bool.false_eq_true, if_neg, not_false_iff]
        simp only [aListGet]
        by_cases hx : hd.1 == k'
        · simp [hx]
        · simp [hx, ih]

theorem mem_updEdges (es : List (String × String × String)) (u v l : String)
    (e : String × String × String) (h : e ∈ updEdges es u v l) : e ∈ es ∨ e = (u, v, l) := by
  induction es with
  | nil => simpa [updEdges] using h
  | cons hd t ih =>
      by_cases hk : hd.1 == u && hd.2.1 == v
      · simp only [updEdges, hk, if_pos] at h
        rcases List.mem_cons.1 h with h1 | h1
        · exact Or.inr h1
        · exact Or.inl (List.mem_cons_of_mem _ h1)
      · simp only [updEdges, hk, Bool.false_eq_true, if_neg, not_false_iff] at h
        rcases List.mem_cons.1 h with h1 | h1
        · exact Or.inl (h1 ▸ List.mem_cons_self _ _)
        · rcases ih h1 with h2 | h2
          · exact Or.inl (List.mem_cons_of_mem _ h2)
          · exact Or.inr h2

theorem mem_updEdges_self (es : List (String × String × String)) (u v l : String) :
    (u, v, l) ∈ updEdges es u v l := by
  induction es with
  | nil => simp [updEdges]
  | cons hd t ih =>
      by_cases hk : hd.1 == u && hd.2.1 == v
      · simp [updEdges, hk]
      · simp only [updEdges, hk, Bool.false_eq_true, if_neg, not_false_iff]
        exact List.mem_cons_of_mem _ ih

theorem mem_updEdges_iff_ne (es : List (String × String × String)) (u v l a b c : String)
    (h : ¬(a = u ∧ b = v)) : (a, b, c) ∈ updEdges es u v l ↔ (a, b, c) ∈ es := by
  induction es with
  | nil =>
      simp only [updEdges, List.mem_singleton, List.not_mem_nil, iff_false]
      intro he
      exact h ⟨congrArg Prod.fst he, congrArg (fun e => e.2.1) he⟩
  | cons hd t ih =>
      by_cases hk : hd.1 == u && hd.2.1 == v
      · have hk' : hd.1 = u ∧ hd.2.1 = v := by
          have := hk
          simp only [Bool.and_eq_true, beq_iff_eq] at this
          exact this
        simp only [updEdges, hk, if_pos, List.mem_cons]
        constructor
        · intro h1
          rcases h1 with h1 | h1
          · exact absurd ⟨congrArg Prod.fst h1, congrArg (fun e => e.2.1) h1⟩ h
          · exact Or.inr h1
        · intro h1
          rcases h1 with h1 | h1
          · exfalso
            apply h
            have ha : a = hd.1 := congrArg Prod.fst h1
            have hb : b = hd.2.1 := congrArg (fun e => e.2.1) h1
            exact ⟨ha.trans hk'.1, hb.trans hk'.2⟩
          · exact Or.inr h1
      · simp only [updEdges, hk, Bool.false_eq_true, if_neg, not_false_iff, List.mem_cons, ih]

theorem ensureNode_edges (g : Graph) (k : String) : (g.ensureNode k).edges = g.edges := by
  unfold Graph.ensureNode
  by_cases h : g.hasNode k <;> simp [h]

theorem addNode_edges (g : Graph) (k t d : String) : (g.addNode k t d).edges = g.edges := rfl

theorem addEdge_edges (g : Graph) (u v l : String) :
    (g.addEdge u v l).edges = updEdges g.edges u v l := by
  unfold Graph.addEdge
  simp [ensureNode_edges]

theorem hasNode_addNode (g : Graph) (k t d x : String) :
    (g.addNode k t d).hasNode x = true ↔ (g.hasNode x = true ∨ k = x) := by
  unfold Graph.addNode Graph.hasNode
  simp only [List.any_eq_true, beq_iff_eq]
  constructor
  · rintro ⟨p, hp, hpx⟩
    rcases mem_updAList_cases g.nodes k _ p hp with h1 | h1
    · exact Or.inl ⟨p, h1, hpx⟩
    · exact Or.inr (by rw [← hpx, h1])
  · rintro (⟨p, hp, hpx⟩ | rfl)
    · by_cases hpk : p.1 = k
      · exact ⟨(k, ⟨some t, some d⟩), mem_updAList_self g.nodes k _, by simp [← hpx, hpk]⟩
      · exact ⟨p, mem_updAList_of_mem_ne g.nodes k _ p hp hpk, hpx⟩
    · exact ⟨(k, ⟨some t, some d⟩), mem_updAList_self g.nodes k _, rfl⟩

theorem hasNode_ensureNode (g : Graph) (k x : String) :
    (g.ensureNode k).hasNode x = true ↔ (g.hasNode x = true ∨ k = x) := by
  unfold Graph.ensureNode
  by_cases h : g.hasNode k
  · simp only [h, if_pos]
    constructor
    · exact Or.inl
    · rintro (h1 | rfl)
      · exact h1
      · exact h
  · simp only [h, Bool.false_eq_true, if_neg, not_false_iff]
    unfold Graph.hasNode
    simp [List.any_eq_true, beq_iff_eq, List.mem_append, or_assoc]

theorem hasNode_addEdge (g : Graph) (u v l x : String) :
    (g.addEdge u v l).hasNode x = true ↔ (g.hasNode x = true ∨ u = x ∨ v = x) := by
  unfold Graph.addEdge
  show ((g.ensureNode u).ensureNode v).hasNode x = true ↔ _
  rw [hasNode_ensureNode, hasNode_ensureNode]
  tauto

theorem hasNode_mono_addEdge (g : Graph) (u v l x : String) (h : g.hasNode x = true) :
    (g.addEdge u v l).hasNode x = true :=
  (hasNode_addEdge g u v l x).2 (Or.inl h)

theorem mem_addEdge_self (g : Graph) (u v l : String) :
    (u, v, l) ∈ (g.addEdge u v l).edges := by
  rw [addEdge_edges]
  exact mem_updEdges_self _ _ _ _

theorem mem_addEdge_ne (g : Graph) (u v l a b c : String) (h : ¬(a = u ∧ b = v)) :
    (a, b, c) ∈ (g.addEdge u v l).edges ↔ (a, b, c) ∈ g.edges := by
  rw [addEdge_edges]
  exact mem_updEdges_iff_ne _ _ _ _ _ _ _ h

theorem find?_updEdges (es : List (String × String × String)) (u v l a b : String) :
    (updEdges es u v l).find? (fun e => e.1 == a && e.2.1 == b) =
      if a = u ∧ b = v then some (u, v, l)
      else es.find? (fun e => e.1 == a && e.2.1 == b) := by
  induction es with
  | nil =>
      by_cases hab : a = u ∧ b = v
      · simp [updEdges, List.find?, hab, hab.1, hab.2]
      · have : (u == a && v == b) = false := by
          simp only [Bool.and_eq_false_iff, beq_eq_false_iff_ne, ne_eq]
          by_cases h1 : a = u
          · exact Or.inr (fun hb => hab ⟨h1, hb.symm⟩)
          · exact Or.inl (fun ha => h1 ha.symm)
        simp [updEdges, List.find?, this, hab]
  | cons hd t ih =>
      by_cases hk : hd.1 == u && hd.2.1 == v
      · have hk' : hd.1 = u ∧ hd.2.1 = v := by
          simpa [Bool.and_eq_true, beq_iff_eq] using hk
        by_cases hab : a = u ∧ b = v
        · have hpred : (u == a && v == b) = true := by
            simp [beq_iff_eq, hab.1, hab.2]
          simp [updEdges, hk, List.find?, hpred, hab]
        · have hpred : (u == a && v == b) = false := by
            simp only [Bool.and_eq_false_iff, beq_eq_false_iff_ne, ne_eq]
            by_cases h1 : a = u
            · exact Or.inr (fun hb => hab ⟨h1, hb.symm⟩)
            · exact Or.inl (fun ha => h1 ha.symm)
          have hpred2 : (hd.1 == a && hd.2.1 == b) = false := by
            rw [hk'.1, hk'.2]; exact hpred
          simp [updEdges, hk, List.find?, hpred, hpred2, hab]
      · by_cases hpred : hd.1 == a && hd.2.1 == b
        · have hpred' : hd.1 = a ∧ hd.2.1 = b := by
            simpa [Bool.and_eq_true, beq_iff_eq] using hpred
        
          have hab : ¬(a = u ∧ b = v) := by
            rintro ⟨rfl, rfl⟩
            exact hk (by simp [beq_iff_eq, hpred'.1, hpred'.2])
          simp [updEdges, hk, List.find?, hpred, hab]
        · simp [updEdges, hk, List.find?, hpred, ih]

theorem edgeLabel_addEdge (g : Graph) (u v l a b : String) :
    (g.addEdge u v l).edgeLabel a b =
      if a = u ∧ b = v then some l else g.edgeLabel a b := by
  unfold Graph.edgeLabel
  rw [addEdge_edges, find?_updEdges]
  by_cases hab : a = u ∧ b = v <;> simp [hab]

theorem pairwise_updEdges (es : List (String × String × String)) (u v l : String)
    (h : es.Pairwise (fun e e' => (e.1, e.2.1) ≠ (e'.1, e'.2.1))) :
    (updEdges es u v l).Pairwise (fun e e' => (e.1, e.2.1) ≠ (e'.1, e'.2.1)) := by
  induction es with
  | nil => simp [updEdges]
  | cons hd t ih =>
      rcases List.pairwise_cons.1 h with ⟨hhd, ht⟩
      by_cases hk : hd.1 == u && hd.2.1 == v
      · have hk' : hd.1 = u ∧ hd.2.1 = v := by
          simpa [Bool.and_eq_true, beq_iff_eq] using hk
        simp only [updEdges, hk, if_pos]
        refine List.pairwise_cons.2 ⟨?_, ht⟩
        intro e he
        have := hhd e he
        simpa [← hk'.1, ← hk'.2] using this
      · have hk' : ¬(hd.1 = u ∧ hd.2.1 = v) := by
          intro hc
          exact hk (by simp [beq_iff_eq, hc.1, hc.2])
        simp only [updEdges, hk, Bool.false_eq_true, if_neg, not_false_iff]
        refine List.pairwise_cons.2 ⟨?_, ih ht⟩
        intro e he
        rcases mem_updEdges t u v l e he with h1 | h1
        · exact hhd e h1
        · subst h1
          intro hc
          exact hk' ⟨congrArg Prod.fst hc, congrArg Prod.snd hc⟩

theorem countP_updEdges_key (es : List (String × String × String)) (u v l : String)
    (h : es.Pairwise (fun e e' => (e.1, e.2.1) ≠ (e'.1, e'.2.1))) :
    (updEdges es u v l).countP (fun e => e.1 == u && e.2.1 == v) = 1 := by
  induction es with
  | nil => simp [updEdges, List.countP_cons]
  | cons hd t ih =>
      rcases List.pairwise_cons.1 h with ⟨hhd, ht⟩
      by_cases hk : hd.1 == u && hd.2.1 == v
      · have hk' : hd.1 = u ∧ hd.2.1 = v := by
          simpa [Bool.and_eq_true, beq_iff_eq] using hk
        simp only [updEdges, hk, if_pos]
        rw [List.countP_cons]
        have hz : t.countP (fun e => e.1 == u && e.2.1 == v) = 0 := by
          rw [List.countP_eq_zero]
          intro e he
          have := hhd e he
          rw [hk'.1, hk'.2] at this
          simp only [Bool.and_eq_true, beq_iff_eq, not_and]
          intro h1 h2
          exact this (by rw [h1, h2])
        simp [hz]
      · simp only [updEdges, hk, Bool.false_eq_true, if_neg, not_false_iff]
        rw [List.countP_cons]
        simp [hk, ih ht]

theorem edgeKeysUnique_addEdge (g : Graph) (u v l : String) (h : EdgeKeysUnique g) :
    EdgeKeysUnique (g.addEdge u v l) := by
  unfold EdgeKeysUnique at *
  rw [addEdge_edges]
  exact pairwise_updEdges _ _ _ _ h

/-! ## C1 -/

/-- C1: the claim states that a per-file parse failure is non-fatal and
`parse()` still runs to completion.  The indexing pass does skip the
failing file and index the rest (second conjunct), but
`_add_class_nodes_and_edges` re-opens and re-parses every file with no
exception handler, so the same failure then raises out of `parse()`:
on a tree whose second file raises `invalid syntax`, the whole build
aborts with that error (first conjunct) and no graph is returned. -/
theorem c1_parse_failure_aborts_build :
    parse pyBuiltinsDemo listingParseFail = .error "invalid syntax" ∧
    (indexFunctionsAndImports listingParseFail
        (collectFiles pyBuiltinsDemo listingParseFail)).functionsByFile.map Prod.fst =
      ["a.py"] :=
  ⟨rfl, rfl⟩

/-! ## C3 -/

/-- C3: the claim states that variable nodes are keyed by the enclosing
function or method UID.  In the source, both call sites of
`_track_variables` (lines 190 and 155) pass `rel` — the file path — as
`context_uid`, so the two functions `f` and `g` of `a.py`, each
assigning the bare name `x`, share the single variable node `a.py::x`,
whose `defines_var` edge comes from the file node; the function-scoped
nodes `a.py::f::x` and `a.py::g::x` do not exist. -/
theorem c3_variable_context_is_file :
    (parse pyBuiltinsDemo listingTwoFuncsSameVar).map
        (fun g => g.nodes.filter (fun kv => kv.2.typ == some "variable")) =
      .ok [("a.py::x", ⟨some "variable", some "x"⟩)] ∧
    (parse pyBuiltinsDemo listingTwoFuncsSameVar).map
        (fun g => g.edges.filter (fun e => e.2.2 == "defines_var")) =
      .ok [("a.py", "a.py::x", "defines_var")] ∧
    (parse pyBuiltinsDemo listingTwoFuncsSameVar).map
        (fun g => (g.hasNode "a.py::f::x", g.hasNode "a.py::g::x")) =
      .ok (false, false) :=
  ⟨rfl, rfl, rfl⟩

/-! ## C4 -/

/-- C4: the claim states that `super().m()` inside `D::m` yields a
`calls` edge to the first base class method `B::m`.  In the source the
receiver of `super().m()` is an `ast.Call` node, so the
`self`/`super` branch of `_track_method_calls` (which requires an
`ast.Name` receiver) never matches, and the `super` branch of
`_resolve_callee` is unreachable (its guard repeats the previous
`elif`, which also requires an `ast.Name` receiver).  On the class
pair `B` / `D(B)` the finished graph has no `calls` edge at all, even
though the `inherits` edge is present. -/
theorem c4_super_call_produces_no_calls_edge :
    (parse pyBuiltinsDemo listingSuperCall).map
        (fun g => g.edges.filter (fun e => e.2.2 == "calls")) = .ok [] ∧
    (parse pyBuiltinsDemo listingSuperCall).map
        (fun g => g.edges.filter (fun e => e.2.2 == "inherits")) =
      .ok [("a.py::D", "a.py::B", "inherits")] :=
  ⟨rfl, rfl⟩

/-! ## C2 -/

/-- C2 counterexample: the claim states that a `defines_var` edge and a
`mutates_var` edge between the same ordered pair both persist when the
body contains a plain and an augmented assignment to the same name.
The graph is an `nx.DiGraph`, so the augmented assignment overwrites
the label of the single stored edge: after `x = 1; x += 2` only the
`mutates_var` edge remains. -/
theorem c2_label_overwrite_counterexample :
    (trackVariables Graph.empty fdefDefineThenAugment "s").edges =
      [("s", "s::x", "mutates_var")] ∧
    ("s", "s::x", "defines_var") ∉ (trackVariables Graph.empty fdefDefineThenAugment "s").edges :=
  ⟨rfl, by decide⟩

/-- C2 amended: edge additions are deduplicated at endpoint
granularity, not label+endpoint granularity.  Adding an edge stores its
label for the ordered pair (first conjunct), leaves every other pair
untouched (second conjunct), and keeps exactly one stored edge per pair
(third conjunct); consequently the plain-then-augmented assignment
body leaves one edge labelled `mutates_var` (fourth conjunct). -/
theorem c2_endpoint_granularity_dedup :
    (∀ (g : Graph) (u v l : String), (g.addEdge u v l).edgeLabel u v = some l) ∧
    (∀ (g : Graph) (u v l a b c : String), ¬(a = u ∧ b = v) →
      ((a, b, c) ∈ (g.addEdge u v l).edges ↔ (a, b, c) ∈ g.edges)) ∧
    (∀ (g : Graph) (u v l : String), EdgeKeysUnique g →
      EdgeKeysUnique (g.addEdge u v l) ∧
      (g.addEdge u v l).edges.countP (fun e => e.1 == u && e.2.1 == v) = 1) ∧
    (trackVariables Graph.empty fdefDefineThenAugment "s").edgeLabel "s" "s::x" =
      some "mutates_var" := by
  refine ⟨?_, ?_, ?_, rfl⟩
  · intro g u v l
    simp [edgeLabel_addEdge]
  · intro g u v l a b c h
    exact mem_addEdge_ne g u v l a b c h
  · intro g u v l h
    refine ⟨edgeKeysUnique_addEdge g u v l h, ?_⟩
    rw [addEdge_edges]
    exact countP_updEdges_key g.edges u v l h

/-- Witness for the hypotheses of `c2_endpoint_granularity_dedup` at a
concrete graph. -/
theorem c2_endpoint_granularity_dedup_witness :
    (("a", "b", "x") ∈ (Graph.empty.addEdge "u" "v" "w").edges ↔
      ("a", "b", "x") ∈ Graph.empty.edges) ∧
    EdgeKeysUnique (Graph.empty.addEdge "u" "v" "w") ∧
    (Graph.empty.addEdge "u" "v" "w").edges.countP
      (fun e => e.1 == "u" && e.2.1 == "v") = 1 :=
  ⟨c2_endpoint_granularity_dedup.2.1 Graph.empty "u" "v" "w" "a" "b" "x" (by simp),
   (c2_endpoint_granularity_dedup.2.2.1 Graph.empty "u" "v" "w" List.Pairwise.nil).1,
   (c2_endpoint_granularity_dedup.2.2.1 Graph.empty "u" "v" "w" List.Pairwise.nil).2⟩

/-! ## C5 counterexample -/

/-- C5 counterexample: the claim states that a class inherits-links to
every same-named class node including ones from files processed later
in the walk order.  With `d.py` (declaring `D(B)`) walked before
`b.py` (declaring `B`), both class nodes exist in the finished graph
but no `inherits` edge does: the scan of
`_add_class_nodes_and_edges` only sees nodes already added when `D` is
processed. -/
theorem c5_later_file_base_counterexample :
    (parse pyBuiltinsDemo listingBaseLast).map
        (fun g => g.edges.filter (fun e => e.2.2 == "inherits")) = .ok [] ∧
    (parse pyBuiltinsDemo listingBaseLast).map
        (fun g => (g.hasNode "d.py::D", g.hasNode "b.py::B")) = .ok (true, true) :=
  ⟨rfl, rfl⟩

/-! ## C6 counterexample -/

/-- C6 counterexample: the claim states a read is linked only when a
definition textually precedes it.  In `def f(): y = x; x = 1` the read
of `x` (line 1 of the body) textually precedes its defining assignment
(line 2), yet the `uses_var` edge is created: `ast.walk` is
breadth-first, so both assignment statements (depth 1) are processed
before the read expression (depth 2). -/
theorem c6_read_before_def_counterexample :
    ("f::x", "f", "uses_var") ∈ (trackVariables Graph.empty fdefReadBeforeDef "f").edges := by
  decide

/-! ## C8 counterexample -/

/-- C8 counterexample: the claim states each annotated parameter yields
exactly one `param_type` edge and an annotated return exactly one
`return_type` edge.  For `def f(x: int) -> int` both annotations render
to `int`, and the return edge overwrites the parameter edge in the
`DiGraph`: the finished graph holds no `param_type` edge for `f` at
all. -/
theorem c8_same_text_annotation_counterexample :
    (parse pyBuiltinsDemo listingParamRetInt).map
        (fun g => g.edges.filter (fun e => e.1 == "a.py::f")) =
      .ok [("a.py::f", "int", "return_type")] := rfl

/-! ## C9: lemmas about call paths -/

theorem callPathsLe_head (g : Graph) (d : Nat) (u : String) (p : List String)
    (hp : p ∈ callPathsLe g d u) : p.head? = some u := by
  cases d with
  | zero =>
      simp only [callPathsLe, List.mem_singleton] at hp
      simp [hp]
  | succ d =>
      simp only [callPathsLe, List.mem_cons, List.mem_flatMap, List.mem_map] at hp
      rcases hp with rfl | ⟨c, _, q, _, rfl⟩
      · rfl
      · rfl

theorem callPathsLe_ne_nil (g : Graph) (d : Nat) (u : String) (p : List String)
    (hp : p ∈ callPathsLe g d u) : p ≠ [] := by
  intro h
  have := callPathsLe_head g d u p hp
  rw [h] at this
  simp at this

theorem filterMap_flatMap' {α β γ : Type} (l : List α) (g : α → List β) (f : β → Option γ) :
    (l.flatMap g).filterMap f = l.flatMap (fun a => (g a).filterMap f) := by
  induction l with
  | nil => simp
  | cons hd t ih => simp [List.flatMap_cons, List.filterMap_append, ih]

theorem filterMap_congr' {α β : Type} (l : List α) (f h : α → Option β)
    (hc : ∀ a ∈ l, f a = h a) : l.filterMap f = l.filterMap h := by
  induction l with
  | nil => rfl
  | cons hd t ih =>
      rw [List.filterMap_cons, List.filterMap_cons, hc hd (List.mem_cons_self _ _),
        ih (fun a ha => hc a (List.mem_cons_of_mem _ ha))]

theorem filterMap_lastPair_cons (g : Graph) (d : Nat) (u c : String) :
    ((callPathsLe g d c).map (fun p => u :: p)).filterMap lastPair =
      (u, c) :: (callPathsLe g d c).filterMap lastPair := by
  cases d with
  | zero => rfl
  | succ d =>
      simp only [callPathsLe, List.map_cons, List.filterMap_cons,
        show lastPair [u, c] = some (u, c) from rfl,
        show lastPair [c] = none from rfl]
      congr 1
      rw [List.filterMap_map]
      apply filterMap_congr'
      intro p hp
      simp only [List.mem_flatMap, List.mem_map] at hp
      rcases hp with ⟨c', _, q, hq, rfl⟩
      rcases q with _ | ⟨q1, qt⟩
      · exact absurd rfl (callPathsLe_ne_nil g d c' [] hq)
      · rfl

theorem findCallChainAux_eq_paths (g : Graph) (d : Nat) :
    ∀ u, findCallChainAux g d u = (callPathsLe g d u).filterMap lastPair := by
  induction d with
  | zero => intro u; rfl
  | succ d ih =>
      intro u
      have h2 : (callPathsLe g (d + 1) u).filterMap lastPair =
          ((callsSucc g u).flatMap
            (fun c => (callPathsLe g d c).map (fun p => u :: p))).filterMap lastPair := rfl
      rw [h2, filterMap_flatMap']
      show (callsSucc g u).flatMap (fun c => (u, c) :: findCallChainAux g d c) = _
      have h3 : ∀ c, (u, c) :: findCallChainAux g d c =
          ((callPathsLe g d c).map (fun p => u :: p)).filterMap lastPair := by
        intro c
        rw [filterMap_lastPair_cons, ih c]
      simp only [h3]

theorem mem_callPathsLe_iff (g : Graph) (d : Nat) :
    ∀ (u : String) (p : List String),
      p ∈ callPathsLe g d u ↔
        (p.head? = some u ∧ p.length ≤ d + 1 ∧
          p.Chain' (fun a b => b ∈ callsSucc g a)) := by
  induction d with
  | zero =>
      intro u p
      simp only [callPathsLe, List.mem_singleton]
      constructor
      · rintro rfl
        exact ⟨rfl, by simp, List.chain'_singleton u⟩
      · rintro ⟨h1, h2, _⟩
        cases p with
        | nil => simp at h1
        | cons a t =>
            have ha : a = u := by simpa using h1
            subst ha
            cases t with
            | nil => rfl
            | cons b t' => simp at h2
  | succ d ih =>
      intro u p
      simp only [callPathsLe, List.mem_cons, List.mem_flatMap, List.mem_map]
      constructor
      · rintro (rfl | ⟨c, hc, q, hq, rfl⟩)
        · exact ⟨rfl, by simp, List.chain'_singleton u⟩
        · rcases (ih c q).1 hq with ⟨hh, hl, hch⟩
          refine ⟨rfl, by simpa using Nat.succ_le_succ hl, ?_⟩
          cases q with
          | nil => simp at hh
          | cons b t =>
              have hb : b = c := by simpa using hh
              subst hb
              exact List.chain'_cons.2 ⟨hc, hch⟩
      · rintro ⟨h1, h2, h3⟩
        cases p with
        | nil => simp at h1
        | cons a t =>
            have ha : a = u := by simpa using h1
            subst ha
            cases t with
            | nil => exact Or.inl rfl
            | cons c t' =>
                rcases List.chain'_cons.1 h3 with ⟨hc, hch⟩
                refine Or.inr ⟨c, hc, c :: t', (ih c (c :: t')).2 ⟨rfl, ?_, hch⟩, rfl⟩
                simpa using Nat.le_of_succ_le_succ h2

/-- C9: `find_call_chain` terminates on every graph and depth — the
embedding is defined by structural recursion on the remaining depth,
mirroring the level counter of the source, which stops once
`level > depth` — and its result is exactly the list obtained by
taking the last edge of every nonempty `calls`-labelled path of at
most `depth` hops out of `start`, in depth-first order (first
conjunct); the second conjunct identifies those paths: lists headed by
`start`, of at most `depth` hops, chained along `calls` edges.  A node
reachable along several paths is therefore traversed once per path —
there is no visited-set deduplication, and cycles are bounded only by
the depth. -/
theorem c9_call_chain_characterization (g : Graph) (start : String) (depth : Nat) :
    findCallChain g start depth = (callPathsLe g depth start).filterMap lastPair ∧
    (∀ p : List String, p ∈ callPathsLe g depth start ↔
      (p.head? = some start ∧ p.length ≤ depth + 1 ∧
        p.Chain' (fun a b => b ∈ callsSucc g a))) :=
  ⟨findCallChainAux_eq_paths g depth start, fun p => mem_callPathsLe_iff g depth start p⟩

/-! ## C7 -/

/-- C7: resolution of a bare-name call `fname(...)` walked inside a
top-level function, with first match winning: a recognized builtin
stops resolution with no edge (first conjunct); otherwise a top-level
function of the same file binds to `<rel>::<fname>` and the `calls`
edge is added from the caller (second conjunct; the function node
exists in the finished pipeline, hence the node hypothesis); otherwise
a `from M import fname` binding whose module has a basename match binds
to `<matched>::<fname>`, with the edge added exactly when that node
exists (third conjunct); otherwise nothing is resolved, the graph is
unchanged and no failure occurs (fourth conjunct). -/
theorem c7_bare_name_call_resolution (p : CodeParser) (g : Graph)
    (rel fname callerUid : String) (args : List PExpr) :
    (p.builtinNames.contains fname = true →
      resolveCallee p (.call (.name fname true) args) rel none = none ∧
      resolveCallAndAdd p g callerUid (.call (.name fname true) args) rel none = g) ∧
    (p.builtinNames.contains fname = false →
      (aListGet ((aListGet p.functionsByFile rel).getD []) fname).isSome = true →
      resolveCallee p (.call (.name fname true) args) rel none =
        some (rel ++ "::" ++ fname) ∧
      (g.hasNode (rel ++ "::" ++ fname) = true →
        resolveCallAndAdd p g callerUid (.call (.name fname true) args) rel none =
          g.addEdge callerUid (rel ++ "::" ++ fname) "calls")) ∧
    (∀ m matched, p.builtinNames.contains fname = false →
      aListGet ((aListGet p.functionsByFile rel).getD []) fname = none →
      aListGet ((aListGet p.fromImportsByFile rel).getD []) fname = some m →
      matchModuleToFile p m = some matched →
      resolveCallee p (.call (.name fname true) args) rel none =
        some (matched ++ "::" ++ fname) ∧
      (g.hasNode (matched ++ "::" ++ fname) = true →
        resolveCallAndAdd p g callerUid (.call (.name fname true) args) rel none =
          g.addEdge callerUid (matched ++ "::" ++ fname) "calls") ∧
      (g.hasNode (matched ++ "::" ++ fname) = false →
        resolveCallAndAdd p g callerUid (.call (.name fname true) args) rel none = g)) ∧
    (p.builtinNames.contains fname = false →
      aListGet ((aListGet p.functionsByFile rel).getD []) fname = none →
      (∀ m, aListGet ((aListGet p.fromImportsByFile rel).getD []) fname = some m →
        matchModuleToFile p m = none) →
      resolveCallee p (.call (.name fname true) args) rel none = none ∧
      resolveCallAndAdd p g callerUid (.call (.name fname true) args) rel none = g) := by
  refine ⟨?_, ?_, ?_, ?_⟩
  · intro hb
    have hb' : fname ∈ p.builtinNames := by simpa using hb
    have h1 : resolveCallee p (.call (.name fname true) args) rel none = none := by
      simp [resolveCallee, hb']
    exact ⟨h1, by simp [resolveCallAndAdd, h1]⟩
  · intro hb hf
    have hb' : fname ∉ p.builtinNames := by simpa using hb
    have h1 : resolveCallee p (.call (.name fname true) args) rel none =
        some (rel ++ "::" ++ fname) := by
      simp [resolveCallee, hb', hf]
    exact ⟨h1, fun hn => by simp [resolveCallAndAdd, h1, hn]⟩
  · intro m matched hb hf hm hmatch
    have hb' : fname ∉ p.builtinNames := by simpa using hb
    have h1 : resolveCallee p (.call (.name fname true) args) rel none =
        some (matched ++ "::" ++ fname) := by
      simp [resolveCallee, hb', hf, hm, hmatch]
    exact ⟨h1, fun hn => by simp [resolveCallAndAdd, h1, hn],
      fun hn => by simp [resolveCallAndAdd, h1, hn]⟩
  · intro hb hf hnm
    have hb' : fname ∉ p.builtinNames := by simpa using hb
    have h1 : resolveCallee p (.call (.name fname true) args) rel none = none := by
      simp only [resolveCallee, hb, hf]
      cases hx : aListGet ((aListGet p.fromImportsByFile rel).getD []) fname with
      | none => simp
      | some m => simp [hnm m hx]
    exact ⟨h1, by simp [resolveCallAndAdd, h1]⟩

/-- Witness for `c7_bare_name_call_resolution` on the concrete parser
state `cpDemo`, exercising all four branches. -/
theorem c7_bare_name_call_resolution_witness :
    (resolveCallAndAdd cpDemo cpDemo.graph "a.py::g" (.call (.name "len" true) []) "a.py" none =
      cpDemo.graph) ∧
    (resolveCallee cpDemo (.call (.name "f" true) []) "a.py" none =
      some ("a.py" ++ "::" ++ "f")) ∧
    (resolveCallAndAdd cpDemo cpDemo.graph "a.py::g" (.call (.name "f" true) []) "a.py" none =
      cpDemo.graph.addEdge "a.py::g" ("a.py" ++ "::" ++ "f") "calls") ∧
    (resolveCallee cpDemo (.call (.name "h" true) []) "a.py" none =
      some ("b.py" ++ "::" ++ "h")) ∧
    (resolveCallAndAdd cpDemo cpDemo.graph "a.py::g" (.call (.name "h" true) []) "a.py" none =
      cpDemo.graph.addEdge "a.py::g" ("b.py" ++ "::" ++ "h") "calls") ∧
    (resolveCallAndAdd cpDemo cpDemo.graph "a.py::g" (.call (.name "q" true) []) "a.py" none =
      cpDemo.graph) :=
  ⟨((c7_bare_name_call_resolution cpDemo cpDemo.graph "a.py" "len" "a.py::g" []).1
      (by decide)).2,
   ((c7_bare_name_call_resolution cpDemo cpDemo.graph "a.py" "f" "a.py::g" []).2.1
      (by decide) (by decide)).1,
   ((c7_bare_name_call_resolution cpDemo cpDemo.graph "a.py" "f" "a.py::g" []).2.1
      (by decide) (by decide)).2 (by decide),
   ((c7_bare_name_call_resolution cpDemo cpDemo.graph "a.py" "h" "a.py::g" []).2.2.1
      "b" "b.py" (by decide) rfl rfl rfl).1,
   ((c7_bare_name_call_resolution cpDemo cpDemo.graph "a.py" "h" "a.py::g" []).2.2.1
      "b" "b.py" (by decide) rfl rfl rfl).2.1 (by decide),
   ((c7_bare_name_call_resolution cpDemo cpDemo.graph "a.py" "q" "a.py::g" []).2.2.2
      (by decide) rfl
      (fun m hm => by
        rw [show aListGet ((aListGet cpDemo.fromImportsByFile "a.py").getD []) "q" =
          none from rfl] at hm
        exact Option.noConfusion hm)).2⟩

/-! ## C8 -/

theorem edgeLabel_addNode (g : Graph) (k t d u v : String) :
    (g.addNode k t d).edgeLabel u v = g.edgeLabel u v := rfl

theorem edgeKeysUnique_addNode (g : Graph) (k t d : String) (h : EdgeKeysUnique g) :
    EdgeKeysUnique (g.addNode k t d) := h

theorem trackTypes_param_fold (uid t : String) :
    ∀ (args : List PArg) (g : Graph),
      ((args.foldl (fun g a =>
          match a.annotation with
          | some ann =>
              let typeName := getTypeName ann
              (g.addNode typeName "type" typeName).addEdge uid typeName "param_type"
          | none => g) g).edgeLabel uid t) =
        (if args.any (fun a => a.annotation.map getTypeName == some t) then
          some "param_type"
        else g.edgeLabel uid t) := by
  intro args
  induction args with
  | nil => intro g; simp
  | cons a args' ih =>
      intro g
      rw [List.foldl_cons, List.any_cons]
      cases ha : a.annotation with
      | none =>
          simp only [ha, Option.map_none']
          rw [ih]
          simp
      | some ann =>
          simp only [ha, Option.map_some']
          rw [ih]
          by_cases hany : args'.any (fun a => a.annotation.map getTypeName == some t) = true
          · simp [hany]
          · simp only [hany, Bool.or_false, if_neg, Bool.false_eq_true, not_false_iff]
            rw [edgeLabel_addEdge, edgeLabel_addNode]
            by_cases ht : t = getTypeName ann
            · simp [ht]
            · have h2 : ¬(uid = uid ∧ t = getTypeName ann) := fun hc => ht hc.2
              have h3 : (some (getTypeName ann) == some t) = false := by
                simp [beq_iff_eq]
                intro hc
                exact ht hc.symm
              simp [h2, h3]
              exact fun hc => absurd hc ht

theorem edgeKeysUnique_trackTypes_params (uid : String) :
    ∀ (args : List PArg) (g : Graph), EdgeKeysUnique g →
      EdgeKeysUnique (args.foldl (fun g a =>
          match a.annotation with
          | some ann =>
              let typeName := getTypeName ann
              (g.addNode typeName "type" typeName).addEdge uid typeName "param_type"
          | none => g) g) := by
  intro args
  induction args with
  | nil => intro g h; exact h
  | cons a args' ih =>
      intro g h
      rw [List.foldl_cons]
      cases ha : a.annotation with
      | none => simp only [ha]; exact ih g h
      | some ann =>
          simp only [ha]
          exact ih _ (edgeKeysUnique_addEdge _ _ _ _ (edgeKeysUnique_addNode _ _ _ _ h))

/-- C8 amended: each annotated parameter contributes a `param_type`
edge keyed by the rendered annotation text and an annotated return a
`return_type` edge, except that edges between the same function and the
same type node collapse: the stored label of edge `(uid, t)` after type
tracking is `return_type` when the return annotation renders to `t`,
else `param_type` when some parameter annotation renders to `t`, else
whatever was stored before (first conjunct).  Tracking keeps at most
one edge per ordered pair (second conjunct), and on
`def f(x: int) -> str` the finished build holds exactly one
`param_type` edge to `int` and one `return_type` edge to `str` (third
conjunct). -/
theorem c8_type_edges (g : Graph) (f : FunctionDef) (uid t : String) :
    ((trackTypes g f uid).edgeLabel uid t =
      if f.returns.map getTypeName = some t then some "return_type"
      else if f.args.any (fun a => a.annotation.map getTypeName == some t) = true then
        some "param_type"
      else g.edgeLabel uid t) ∧
    (EdgeKeysUnique g → EdgeKeysUnique (trackTypes g f uid)) ∧
    ((parse pyBuiltinsDemo listingParamIntRetStr).map
        (fun gr => gr.edges.filter (fun e => e.1 == "a.py::f")) =
      .ok [("a.py::f", "int", "param_type"), ("a.py::f", "str", "return_type")]) := by
  refine ⟨?_, ?_, rfl⟩
  · unfold trackTypes
    cases hr : f.returns with
    | none =>
        simp only [hr, Option.map_none']
        rw [trackTypes_param_fold]
        simp
    | some r =>
        simp only [hr, Option.map_some']
        rw [edgeLabel_addEdge, edgeLabel_addNode, trackTypes_param_fold]
        by_cases ht : t = getTypeName r
        · simp [ht]
        · have h2 : ¬(uid = uid ∧ t = getTypeName r) := fun hc => ht hc.2
          have h3 : ¬(some (getTypeName r) = some t) := by
            intro hc
            exact ht (Option.some.inj hc).symm
          simp [h2, h3]
          exact fun hc => absurd hc ht
  · intro h
    unfold trackTypes
    cases hr : f.returns with
    | none =>
        simp only [hr]
        exact edgeKeysUnique_trackTypes_params uid f.args g h
    | some r =>
        simp only [hr]
        exact edgeKeysUnique_addEdge _ _ _ _
          (edgeKeysUnique_addNode _ _ _ _ (edgeKeysUnique_trackTypes_params uid f.args g h))

/-- Witness for the hypothesis of `c8_type_edges` at a concrete
graph and function. -/
theorem c8_type_edges_witness :
    EdgeKeysUnique (trackTypes Graph.empty fdefParamIntRetStr "f") :=
  (c8_type_edges Graph.empty fdefParamIntRetStr "f" "int").2.1 List.Pairwise.nil

/-! ## C5 -/

theorem hasNode_eq_of_nodes_eq (g g' : Graph) (h : g'.nodes = g.nodes) (x : String) :
    g'.hasNode x = g.hasNode x := by
  unfold Graph.hasNode
  rw [h]

theorem hasNode_of_mem (g : Graph) (kv : String × NodeAttrs) (h : kv ∈ g.nodes) :
    g.hasNode kv.1 = true := by
  unfold Graph.hasNode
  rw [List.any_eq_true]
  exact ⟨kv, h, by simp⟩

theorem addEdge_nodes (g : Graph) (u v l : String) (hu : g.hasNode u = true)
    (hv : g.hasNode v = true) : (g.addEdge u v l).nodes = g.nodes := by
  unfold Graph.addEdge Graph.ensureNode
  simp [hu, hv]

theorem classNodeMatches_eq_of_nodes_eq (g g' : Graph) (h : g'.nodes = g.nodes)
    (n b : String) : classNodeMatches g' n b = classNodeMatches g n b := by
  unfold classNodeMatches
  rw [h]

theorem inherits_scan_spec (classUid base : String) :
    ∀ (ns : List (String × NodeAttrs)) (g2 : Graph),
      (∀ kv ∈ ns, g2.hasNode kv.1 = true) → g2.hasNode classUid = true →
      ((ns.foldl (fun g2 kv =>
          if kv.2.typ == some "class" && kv.2.displayName == some base then
            g2.addEdge classUid kv.1 "inherits"
          else g2) g2).nodes = g2.nodes ∧
       ∀ u n, (ns.foldl (fun g2 kv =>
          if kv.2.typ == some "class" && kv.2.displayName == some base then
            g2.addEdge classUid kv.1 "inherits"
          else g2) g2).edgeLabel u n =
        if u = classUid ∧
            ns.any (fun kv =>
              kv.1 == n && (kv.2.typ == some "class" && kv.2.displayName == some base)) = true
        then some "inherits"
        else g2.edgeLabel u n) := by
  intro ns
  induction ns with
  | nil =>
      intro g2 _ _
      constructor
      · rfl
      · intro u n
        simp
  | cons kv ns' ih =>
      intro g2 hmem hcu
      by_cases hm : (kv.2.typ == some "class" && kv.2.displayName == some base) = true
      · have hkv : g2.hasNode kv.1 = true := hmem kv (List.mem_cons_self _ _)
        have hnodes3 : (g2.addEdge classUid kv.1 "inherits").nodes = g2.nodes :=
          addEdge_nodes g2 classUid kv.1 "inherits" hcu hkv
        have hmem3 : ∀ kv' ∈ ns', (g2.addEdge classUid kv.1 "inherits").hasNode kv'.1 = true := by
          intro kv' h'
          rw [hasNode_eq_of_nodes_eq g2 _ hnodes3]
          exact hmem kv' (List.mem_cons_of_mem _ h')
        have hcu3 : (g2.addEdge classUid kv.1 "inherits").hasNode classUid = true := by
          rw [hasNode_eq_of_nodes_eq g2 _ hnodes3]
          exact hcu
        rcases ih (g2.addEdge classUid kv.1 "inherits") hmem3 hcu3 with ⟨ihn, ihl⟩
        constructor
        · rw [List.foldl_cons, if_pos hm, ihn, hnodes3]
        · intro u n
          rw [List.foldl_cons, if_pos hm, ihl u n, List.any_cons, hm]
          rw [edgeLabel_addEdge]
          by_cases hu : u = classUid
          · subst hu
            by_cases hn : ns'.any (fun kv =>
                kv.1 == n && (kv.2.typ == some "class" && kv.2.displayName == some base)) = true
            · simp [hn]
            · by_cases hk : kv.1 = n
              · simp [hn, hk]
              · have hkb : (kv.1 == n) = false := by simp [beq_iff_eq]; exact hk
                simp only [hn, hkb, Bool.true_and, Bool.false_or, if_neg,
                  Bool.false_eq_true, and_false, false_and]
                simp [hn, hk]
                exact fun hc => absurd hc.symm hk
          · simp [hu]
      · have hm' : (kv.2.typ == some "class" && kv.2.displayName == some base) = false := by
          simpa using hm
        rcases ih g2 (fun kv' h' => hmem kv' (List.mem_cons_of_mem _ h')) hcu with ⟨ihn, ihl⟩
        constructor
        · rw [List.foldl_cons, if_neg (by simp [hm']), ihn]
        · intro u n
          rw [List.foldl_cons, if_neg (by simp [hm']), ihl u n]
          have hany : ((kv :: ns').any (fun kv =>
              kv.1 == n && (kv.2.typ == some "class" && kv.2.displayName == some base))) =
              ns'.any (fun kv =>
                kv.1 == n && (kv.2.typ == some "class" && kv.2.displayName == some base)) := by
            rw [List.any_cons]
            simp [hm']
          rw [hany]

theorem addInheritsEdges_spec (classUid : String) :
    ∀ (bases : List String) (g : Graph), g.hasNode classUid = true →
      ((addInheritsEdges g classUid bases).nodes = g.nodes ∧
       ∀ u n, (addInheritsEdges g classUid bases).edgeLabel u n =
         if u = classUid ∧ bases.any (fun b => classNodeMatches g n b) = true then
           some "inherits"
         else g.edgeLabel u n) := by
  intro bases
  induction bases with
  | nil =>
      intro g _
      exact ⟨rfl, fun u n => by simp [addInheritsEdges]⟩
  | cons b bases' ih =>
      intro g h
      have hmemg : ∀ kv ∈ g.nodes, g.hasNode kv.1 = true :=
        fun kv hkv => hasNode_of_mem g kv hkv
      rcases inherits_scan_spec classUid b g.nodes g hmemg h with ⟨hn1, hl1⟩
      have hstep : addInheritsEdges g classUid (b :: bases') =
          addInheritsEdges (g.nodes.foldl (fun g2 kv =>
            if kv.2.typ == some "class" && kv.2.displayName == some b then
              g2.addEdge classUid kv.1 "inherits"
            else g2) g) classUid bases' := rfl
      have h1 : (g.nodes.foldl (fun g2 kv =>
          if kv.2.typ == some "class" && kv.2.displayName == some b then
            g2.addEdge classUid kv.1 "inherits"
          else g2) g).hasNode classUid = true := by
        rw [hasNode_eq_of_nodes_eq g _ hn1]
        exact h
      rcases ih _ h1 with ⟨ihn, ihl⟩
      rw [hstep]
      constructor
      · rw [ihn, hn1]
      · intro u n
        rw [ihl u n]
        have hmeq : ∀ (n' b' : String),
            classNodeMatches (g.nodes.foldl (fun g2 kv =>
              if kv.2.typ == some "class" && kv.2.displayName == some b then
                g2.addEdge classUid kv.1 "inherits"
              else g2) g) n' b' = classNodeMatches g n' b' :=
          fun n' b' => classNodeMatches_eq_of_nodes_eq g _ hn1 n' b'
        have hl1' : (g.nodes.foldl (fun g2 kv =>
            if kv.2.typ == some "class" && kv.2.displayName == some b then
              g2.addEdge classUid kv.1 "inherits"
            else g2) g).edgeLabel u n =
            if u = classUid ∧ classNodeMatches g n b = true then some "inherits"
            else g.edgeLabel u n := hl1 u n
        simp only [hmeq]
        rw [hl1', List.any_cons]
        by_cases hu : u = classUid
        · subst hu
          by_cases ht : bases'.any (fun b' => classNodeMatches g n b') = true
          · simp [ht]
          · by_cases hb : classNodeMatches g n b = true
            · simp [ht, hb]
            · simp [ht, hb]
        · simp [hu]

/-- C5 amended: when a class is processed, the inheritance scan adds
`inherits` edges from it to exactly the nodes of type `class` whose
display name equals one of its declared base names **among the nodes
already present in the graph at that moment** (first conjunct, a
complete characterization of the stored labels after the scan);
matching classes in files processed later in the walk order are
missed.  When the base-class file is walked before the subclass file,
the edge is present in the finished build (second conjunct). -/
theorem c5_inherits_scans_current_graph (g : Graph) (classUid : String)
    (bases : List String) (u n : String) (h : g.hasNode classUid = true) :
    ((addInheritsEdges g classUid bases).edgeLabel u n =
      if u = classUid ∧ bases.any (fun b => classNodeMatches g n b) = true then
        some "inherits"
      else g.edgeLabel u n) ∧
    ((parse pyBuiltinsDemo listingBaseFirst).map
        (fun gr => gr.edges.filter (fun e => e.2.2 == "inherits")) =
      .ok [("d.py::D", "b.py::B", "inherits")]) :=
  ⟨(addInheritsEdges_spec classUid bases g h).2 u n, rfl⟩

/-- Witness for `c5_inherits_scans_current_graph` at a concrete graph
holding a matching base-class node. -/
theorem c5_inherits_scans_current_graph_witness :
    (addInheritsEdges
        ((Graph.empty.addNode "b.py::B" "class" "B").addNode "d.py::D" "class" "D")
        "d.py::D" ["B"]).edgeLabel "d.py::D" "b.py::B" = some "inherits" :=
  ((c5_inherits_scans_current_graph
      ((Graph.empty.addNode "b.py::B" "class" "B").addNode "d.py::D" "class" "D")
      "d.py::D" ["B"] "d.py::D" "b.py::B" (by decide)).1).trans (by decide)

/-! ## C6 -/

theorem varUid_ne_ctx (ctx v : String) : ctx ++ "::" ++ v ≠ ctx := by
  intro h
  have hl := congrArg String.length h
  rw [String.length_append, String.length_append] at hl
  have h2 : ("::" : String).length = 2 := rfl
  omega

theorem varUid_inj (ctx u v : String) (h : ctx ++ "::" ++ u = ctx ++ "::" ++ v) : u = v := by
  rw [String.ext_iff] at h ⊢
  simpa [String.data_append] using h

theorem assign_fold_edge (ctx v : String) :
    ∀ (targets : List PExpr) (g : Graph),
      ((ctx ++ "::" ++ v, ctx, "uses_var") ∈
        (targets.foldl (fun g t =>
          match t with
          | .name v' _ =>
              let varUid := ctx ++ "::" ++ v'
              (g.addNode varUid "variable" v').addEdge ctx varUid "defines_var"
          | _ => g) g).edges) ↔
      (ctx ++ "::" ++ v, ctx, "uses_var") ∈ g.edges := by
  intro targets
  induction targets with
  | nil => intro g; rfl
  | cons t targets' ih =>
      intro g
      rw [List.foldl_cons]
      cases t with
      | name v' b =>
          rw [ih]
          show ((ctx ++ "::" ++ v, ctx, "uses_var") ∈
            ((g.addNode (ctx ++ "::" ++ v') "variable" v').addEdge
              ctx (ctx ++ "::" ++ v') "defines_var").edges) ↔ _
          rw [mem_addEdge_ne _ _ _ _ _ _ _
            (fun hc => varUid_ne_ctx ctx v hc.1)]
          rw [show ((g.addNode (ctx ++ "::" ++ v') "variable" v').edges) = g.edges from rfl]
      | call f args => exact ih g
      | «attribute» val a => exact ih g
      | subscript val s => exact ih g
      | constant s => exact ih g

theorem assign_fold_hasNode (ctx v : String) :
    ∀ (targets : List PExpr) (g : Graph),
      ((targets.foldl (fun g t =>
          match t with
          | .name v' _ =>
              let varUid := ctx ++ "::" ++ v'
              (g.addNode varUid "variable" v').addEdge ctx varUid "defines_var"
          | _ => g) g).hasNode (ctx ++ "::" ++ v) = true) ↔
        (g.hasNode (ctx ++ "::" ++ v) = true ∨
          targets.any (fun t =>
            match t with | .name u _ => u == v | _ => false) = true) := by
  intro targets
  induction targets with
  | nil => intro g; simp
  | cons t targets' ih =>
      intro g
      rw [List.foldl_cons, List.any_cons]
      cases t with
      | name v' b =>
          rw [ih]
          show ((((g.addNode (ctx ++ "::" ++ v') "variable" v').addEdge
              ctx (ctx ++ "::" ++ v') "defines_var").hasNode (ctx ++ "::" ++ v) = true) ∨ _) ↔ _
          rw [hasNode_addEdge]
          constructor
          · rintro ((h1 | h1 | h1) | h1)
            · rcases (hasNode_addNode g _ _ _ _).1 h1 with h2 | h2
              · exact Or.inl h2
              · exact Or.inr (by simp [beq_iff_eq, varUid_inj ctx v' v h2])
            · exact absurd h1 (varUid_ne_ctx ctx v).symm
            · exact Or.inr (by simp [beq_iff_eq, varUid_inj ctx v' v h1])
            · exact Or.inr (by simp [h1])
          · rintro (h1 | h1)
            · exact Or.inl (Or.inl ((hasNode_addNode g _ _ _ _).2 (Or.inl h1)))
            · rw [Bool.or_eq_true] at h1
              rcases h1 with h1 | h1
              · have hv : v' = v := by simpa [beq_iff_eq] using h1
                exact Or.inl (Or.inl ((hasNode_addNode g _ _ _ _).2 (Or.inr (by rw [hv]))))
              · exact Or.inr (by simp [h1])
      | call f args =>
          rw [ih]
          simp
      | «attribute» val a =>
          rw [ih]
          simp
      | subscript val s =>
          rw [ih]
          simp
      | constant s =>
          rw [ih]
          simp

theorem trackVarStep_hasNode (ctx v : String) (g : Graph) (w : WalkNode) :
    ((trackVarStep ctx g w).hasNode (ctx ++ "::" ++ v) = true) ↔
      (g.hasNode (ctx ++ "::" ++ v) = true ∨ isTouch v w = true) := by
  cases w with
  | pstmt s =>
      cases s with
      | assign targets value =>
          show ((targets.foldl (fun g t =>
            match t with
            | .name v' _ =>
                let varUid := ctx ++ "::" ++ v'
                (g.addNode varUid "variable" v').addEdge ctx varUid "defines_var"
            | _ => g) g).hasNode (ctx ++ "::" ++ v) = true) ↔ _
          rw [assign_fold_hasNode]
          exact Iff.rfl
      | augAssign t value =>
          cases t with
          | name v' b =>
              show ((((g.addNode (ctx ++ "::" ++ v') "variable" v').addEdge
                  ctx (ctx ++ "::" ++ v') "mutates_var").hasNode (ctx ++ "::" ++ v) = true) ↔ _)
              rw [hasNode_addEdge]
              constructor
              · rintro (h1 | h1 | h1)
                · rcases (hasNode_addNode g _ _ _ _).1 h1 with h2 | h2
                  · exact Or.inl h2
                  · exact Or.inr (by simp [isTouch, beq_iff_eq, varUid_inj ctx v' v h2])
                · exact absurd h1 (varUid_ne_ctx ctx v).symm
                · exact Or.inr (by simp [isTouch, beq_iff_eq, varUid_inj ctx v' v h1])
              · rintro (h1 | h1)
                · exact Or.inl ((hasNode_addNode g _ _ _ _).2 (Or.inl h1))
                · have hv : v' = v := by simpa [isTouch, beq_iff_eq] using h1
                  exact Or.inl ((hasNode_addNode g _ _ _ _).2 (Or.inr (by rw [hv])))
          | call f args => simp [trackVarStep, isTouch]
          | «attribute» val a => simp [trackVarStep, isTouch]
          | subscript val sl => simp [trackVarStep, isTouch]
          | constant s => simp [trackVarStep, isTouch]
      | exprStmt value => simp [trackVarStep, isTouch]
      | ret value => simp [trackVarStep, isTouch]
      | ifStmt t b o => simp [trackVarStep, isTouch]
      | passStmt => simp [trackVarStep, isTouch]
  | pexpr e =>
      cases e with
      | name u b =>
          cases b with
          | true =>
              by_cases hnu : g.hasNode (ctx ++ "::" ++ u) = true
              · simp only [trackVarStep, hnu, if_pos]
                rw [hasNode_addEdge]
                simp only [isTouch, Bool.false_eq_true, or_false]
                constructor
                · rintro (h1 | h1 | h1)
                  · exact h1
                  · rw [h1] at hnu; exact hnu
                  · exact absurd h1 (varUid_ne_ctx ctx v).symm
                · exact Or.inl
              · have hnu' : g.hasNode (ctx ++ "::" ++ u) = false := by
                  simpa using hnu
                simp [trackVarStep, hnu', isTouch]
          | false => simp [trackVarStep, isTouch]
      | call f args => simp [trackVarStep, isTouch]
      | «attribute» val a => simp [trackVarStep, isTouch]
      | subscript val sl => simp [trackVarStep, isTouch]
      | constant s => simp [trackVarStep, isTouch]
  | pargs l => simp [trackVarStep, isTouch]
  | parg a => simp [trackVarStep, isTouch]
  | pfunc f => simp [trackVarStep, isTouch]

theorem trackVarStep_edge (ctx v : String) (g : Graph) (w : WalkNode) :
    ((ctx ++ "::" ++ v, ctx, "uses_var") ∈ (trackVarStep ctx g w).edges) ↔
      ((ctx ++ "::" ++ v, ctx, "uses_var") ∈ g.edges ∨
        (isUse v w = true ∧ g.hasNode (ctx ++ "::" ++ v) = true)) := by
  cases w with
  | pstmt s =>
      cases s with
      | assign targets value =>
          show (((ctx ++ "::" ++ v, ctx, "uses_var") ∈ (targets.foldl (fun g t =>
            match t with
            | .name v' _ =>
                let varUid := ctx ++ "::" ++ v'
                (g.addNode varUid "variable" v').addEdge ctx varUid "defines_var"
            | _ => g) g).edges) ↔ _)
          rw [assign_fold_edge]
          simp [isUse]
      | augAssign t value =>
          cases t with
          | name v' b =>
              show (((ctx ++ "::" ++ v, ctx, "uses_var") ∈
                  (((g.addNode (ctx ++ "::" ++ v') "variable" v').addEdge
                    ctx (ctx ++ "::" ++ v') "mutates_var")).edges) ↔ _)
              rw [mem_addEdge_ne _ _ _ _ _ _ _ (fun hc => varUid_ne_ctx ctx v hc.1)]
              rw [show ((g.addNode (ctx ++ "::" ++ v') "variable" v').edges) = g.edges from rfl]
              simp [isUse]
          | call f args => simp [trackVarStep, isUse]
          | «attribute» val a => simp [trackVarStep, isUse]
          | subscript val sl => simp [trackVarStep, isUse]
          | constant s => simp [trackVarStep, isUse]
      | exprStmt value => simp [trackVarStep, isUse]
      | ret value => simp [trackVarStep, isUse]
      | ifStmt t b o => simp [trackVarStep, isUse]
      | passStmt => simp [trackVarStep, isUse]
  | pexpr e =>
      cases e with
      | name u b =>
          cases b with
          | true =>
              by_cases huv : u = v
              · subst huv
                by_cases hnu : g.hasNode (ctx ++ "::" ++ u) = true
                · simp only [trackVarStep, hnu, if_pos]
                  rw [addEdge_edges]
                  constructor
                  · intro _
                    exact Or.inr ⟨by simp [isUse], trivial⟩
                  · intro _
                    exact mem_updEdges_self _ _ _ _
                · have hnu' : g.hasNode (ctx ++ "::" ++ u) = false := by simpa using hnu
                  simp [trackVarStep, hnu', isUse, hnu]
              · have hco : ctx ++ "::" ++ u ≠ ctx ++ "::" ++ v :=
                  fun hc => huv (varUid_inj ctx u v hc)
                by_cases hnu : g.hasNode (ctx ++ "::" ++ u) = true
                · simp only [trackVarStep, hnu, if_pos]
                  rw [mem_addEdge_ne _ _ _ _ _ _ _ (fun hc => hco hc.1.symm)]
                  simp [isUse, beq_iff_eq, huv]
                · have hnu' : g.hasNode (ctx ++ "::" ++ u) = false := by simpa using hnu
                  simp [trackVarStep, hnu', isUse, beq_iff_eq, huv]
          | false => simp [trackVarStep, isUse]
      | call f args => simp [trackVarStep, isUse]
      | «attribute» val a => simp [trackVarStep, isUse]
      | subscript val sl => simp [trackVarStep, isUse]
      | constant s => simp [trackVarStep, isUse]
  | pargs l => simp [trackVarStep, isUse]
  | parg a => simp [trackVarStep, isUse]
  | pfunc f => simp [trackVarStep, isUse]

theorem trackVar_fold_present (ctx v : String) :
    ∀ (l : List WalkNode) (g : Graph), g.hasNode (ctx ++ "::" ++ v) = true →
      (((ctx ++ "::" ++ v, ctx, "uses_var") ∈ (l.foldl (trackVarStep ctx) g).edges) ↔
        ((ctx ++ "::" ++ v, ctx, "uses_var") ∈ g.edges ∨ l.any (isUse v) = true)) := by
  intro l
  induction l with
  | nil => intro g _; simp
  | cons w t ih =>
      intro g hg
      rw [List.foldl_cons, List.any_cons]
      have hg1 : (trackVarStep ctx g w).hasNode (ctx ++ "::" ++ v) = true :=
        (trackVarStep_hasNode ctx v g w).2 (Or.inl hg)
      rw [ih _ hg1, trackVarStep_edge]
      simp only [hg, and_true, Bool.or_eq_true, or_assoc]

theorem trackVar_fold_absent (ctx v : String) :
    ∀ (l : List WalkNode) (g : Graph),
      g.hasNode (ctx ++ "::" ++ v) = false →
      (ctx ++ "::" ++ v, ctx, "uses_var") ∉ g.edges →
      (((ctx ++ "::" ++ v, ctx, "uses_var") ∈ (l.foldl (trackVarStep ctx) g).edges) ↔
        touchThenUse v l = true) := by
  intro l
  induction l with
  | nil =>
      intro g _ h2
      simp [touchThenUse, h2]
  | cons w t ih =>
      intro g hg h2
      rw [List.foldl_cons]
      by_cases htc : isTouch v w = true
      · have hg1 : (trackVarStep ctx g w).hasNode (ctx ++ "::" ++ v) = true :=
          (trackVarStep_hasNode ctx v g w).2 (Or.inr htc)
        have h2' : (ctx ++ "::" ++ v, ctx, "uses_var") ∉ (trackVarStep ctx g w).edges := by
          rw [trackVarStep_edge]
          rintro (h3 | h3)
          · exact h2 h3
          · rw [hg] at h3
            exact absurd h3.2 (by simp)
        rw [trackVar_fold_present ctx v t _ hg1]
        simp [touchThenUse, htc, h2']
      · have htc' : isTouch v w = false := by simpa using htc
        have hg1 : (trackVarStep ctx g w).hasNode (ctx ++ "::" ++ v) = false := by
          rcases Bool.eq_false_or_eq_true ((trackVarStep ctx g w).hasNode (ctx ++ "::" ++ v))
            with h | h
          · rcases (trackVarStep_hasNode ctx v g w).1 h with h3 | h3
            · rw [hg] at h3
              exact absurd h3 (by simp)
            · rw [htc'] at h3
              exact absurd h3 (by simp)
          · exact h
        have h2' : (ctx ++ "::" ++ v, ctx, "uses_var") ∉ (trackVarStep ctx g w).edges := by
          rw [trackVarStep_edge]
          rintro (h3 | h3)
          · exact h2 h3
          · rw [hg] at h3
            exact absurd h3.2 (by simp)
        rw [ih _ hg1 h2']
        simp [touchThenUse, htc']

/-- C6 amended: a read (`Load` context) of a bare name inside a walked
function or method body yields the `uses_var` edge exactly when an
assignment (plain or augmented) of that same name precedes the read in
the breadth-first order in which `ast.walk` visits the body — not in
textual order.  Since statements sit shallower in the tree than the
expressions they contain, a read may be linked to an assignment that
textually follows it (see the counterexample), and a textually earlier
assignment nested more deeply may fail to link a shallower read. -/
theorem c6_uses_var_walk_order (g : Graph) (fdef : FunctionDef) (ctx v : String)
    (h1 : g.hasNode (ctx ++ "::" ++ v) = false)
    (h2 : (ctx ++ "::" ++ v, ctx, "uses_var") ∉ g.edges) :
    ((ctx ++ "::" ++ v, ctx, "uses_var") ∈ (trackVariables g fdef ctx).edges ↔
      touchThenUse v (walk (.pfunc fdef)) = true) :=
  trackVar_fold_absent ctx v (walk (.pfunc fdef)) g h1 h2

/-- Witness for `c6_uses_var_walk_order` on the read-before-definition
body, discharging both hypotheses at the empty graph. -/
theorem c6_uses_var_walk_order_witness :
    (("f" ++ "::" ++ "x", "f", "uses_var") ∈
        (trackVariables Graph.empty fdefReadBeforeDef "f").edges ↔
      touchThenUse "x" (walk (.pfunc fdefReadBeforeDef)) = true) :=
  c6_uses_var_walk_order Graph.empty fdefReadBeforeDef "f" "x" rfl (by decide)

/-! ## C10: no `file_import` edge can originate from a file without
top-level functions

The invariant `∀ x, (rel, x, "file_import") ∉ g.edges` is threaded
through every pass of the pipeline. -/

theorem noFileImport_addEdge (rel : String) (g : Graph) (u v l : String)
    (hl : l ≠ "file_import" ∨ u ≠ rel)
    (h : ∀ x, (rel, x, "file_import") ∉ g.edges) :
    ∀ x, (rel, x, "file_import") ∉ (g.addEdge u v l).edges := by
  intro x hx
  rw [addEdge_edges] at hx
  rcases mem_updEdges g.edges u v l _ hx with h1 | h1
  · exact h x h1
  · have hu : rel = u := congrArg Prod.fst h1
    have hl' : "file_import" = l := congrArg (fun e => e.2.2) h1
    rcases hl with hl | hl
    · exact hl hl'.symm
    · exact hl hu.symm

theorem noFileImport_foldl {α : Type} (rel : String) (f : Graph → α → Graph)
    (hf : ∀ g a, (∀ x, (rel, x, "file_import") ∉ g.edges) →
      ∀ x, (rel, x, "file_import") ∉ (f g a).edges) :
    ∀ (l : List α) (g : Graph), (∀ x, (rel, x, "file_import") ∉ g.edges) →
      ∀ x, (rel, x, "file_import") ∉ (l.foldl f g).edges := by
  intro l
  induction l with
  | nil => intro g h; exact h
  | cons a t ih =>
      intro g h
      rw [List.foldl_cons]
      exact ih _ (hf g a h)

theorem noFileImport_trackVarStep (rel ctx : String) (g : Graph) (w : WalkNode)
    (h : ∀ x, (rel, x, "file_import") ∉ g.edges) :
    ∀ x, (rel, x, "file_import") ∉ (trackVarStep ctx g w).edges := by
  cases w with
  | pstmt s =>
      cases s with
      | assign targets value =>
          refine noFileImport_foldl rel _ ?_ targets g h
          intro g2 t hg2
          cases t with
          | name v' b =>
              exact noFileImport_addEdge rel _ ctx _ "defines_var"
                (Or.inl (by decide)) (fun x hx => hg2 x hx)
          | call f args => exact hg2
          | «attribute» val a => exact hg2
          | subscript val sl => exact hg2
          | constant s => exact hg2
      | augAssign t value =>
          cases t with
          | name v' b =>
              exact noFileImport_addEdge rel _ ctx _ "mutates_var"
                (Or.inl (by decide)) (fun x hx => h x hx)
          | call f args => exact h
          | «attribute» val a => exact h
          | subscript val sl => exact h
          | constant s => exact h
      | exprStmt value => exact h
      | ret value => exact h
      | ifStmt t b o => exact h
      | passStmt => exact h
  | pexpr e =>
      cases e with
      | name u b =>
          cases b with
          | true =>
              by_cases hnu : g.hasNode (ctx ++ "::" ++ u) = true
              · simp only [trackVarStep, hnu, if_pos]
                exact noFileImport_addEdge rel g _ ctx "uses_var" (Or.inl (by decide)) h
              · have hnu' : g.hasNode (ctx ++ "::" ++ u) = false := by simpa using hnu
                simpa [trackVarStep, hnu'] using h
          | false => exact h
      | call f args => exact h
      | «attribute» val a => exact h
      | subscript val sl => exact h
      | constant s => exact h
  | pargs l => exact h
  | parg a => exact h
  | pfunc f => exact h

theorem noFileImport_trackVariables (rel ctx : String) (g : Graph) (node : FunctionDef)
    (h : ∀ x, (rel, x, "file_import") ∉ g.edges) :
    ∀ x, (rel, x, "file_import") ∉ (trackVariables g node ctx).edges :=
  noFileImport_foldl rel _ (fun g2 w hg2 => noFileImport_trackVarStep rel ctx g2 w hg2)
    (walk (.pfunc node)) g h

theorem noFileImport_trackTypes (rel : String) (g : Graph) (node : FunctionDef)
    (funcUid : String)
    (h : ∀ x, (rel, x, "file_import") ∉ g.edges) :
    ∀ x, (rel, x, "file_import") ∉ (trackTypes g node funcUid).edges := by
  unfold trackTypes
  have hp : ∀ x, (rel, x, "file_import") ∉
      (node.args.foldl (fun g a =>
        match a.annotation with
        | some ann =>
            let typeName := getTypeName ann
            (g.addNode typeName "type" typeName).addEdge funcUid typeName "param_type"
        | none => g) g).edges := by
    refine noFileImport_foldl rel _ ?_ node.args g h
    intro g2 a hg2
    cases ha : a.annotation with
    | none => simpa [ha] using hg2
    | some ann =>
        simp only [ha]
        exact noFileImport_addEdge rel _ funcUid _ "param_type"
          (Or.inl (by decide)) (fun x hx => hg2 x hx)
  cases hr : node.returns with
  | none => simpa [hr] using hp
  | some r =>
      simp only [hr]
      exact noFileImport_addEdge rel _ funcUid _ "return_type"
        (Or.inl (by decide)) (fun x hx => hp x hx)

theorem noFileImport_trackMethodCalls (rel : String) (g : Graph) (node : FunctionDef)
    (classUid funcUid : String)
    (h : ∀ x, (rel, x, "file_import") ∉ g.edges) :
    ∀ x, (rel, x, "file_import") ∉ (trackMethodCalls g node classUid funcUid).edges := by
  unfold trackMethodCalls
  refine noFileImport_foldl rel _ ?_ (walk (.pfunc node)) g h
  intro g2 w hg2
  cases w with
  | pexpr e =>
      cases e with
      | call f args =>
          cases f with
          | «attribute» val m =>
              cases val with
              | name recv b =>
                  by_cases hr : (recv == "self" || recv == "super") = true
                  · by_cases hn : g2.hasNode (classUid ++ "::" ++ m) = true
                    · simp only [hr, hn, if_pos]
                      exact noFileImport_addEdge rel g2 funcUid _ "calls"
                        (Or.inl (by decide)) hg2
                    · have hn' : g2.hasNode (classUid ++ "::" ++ m) = false := by
                        simpa using hn
                      simpa [hr, hn'] using hg2
                  · have hr' : (recv == "self" || recv == "super") = false := by
                      simpa using hr
                    simpa [hr'] using hg2
              | call f2 a2 => exact hg2
              | «attribute» v2 a2 => exact hg2
              | subscript v2 s2 => exact hg2
              | constant s2 => exact hg2
          | name nm b => exact hg2
          | call f2 a2 => exact hg2
          | subscript v2 s2 => exact hg2
          | constant s2 => exact hg2
      | name nm b => exact hg2
      | «attribute» v2 a2 => exact hg2
      | subscript v2 s2 => exact hg2
      | constant s2 => exact hg2
  | pstmt s => exact hg2
  | pargs l => exact hg2
  | parg a => exact hg2
  | pfunc f => exact hg2

theorem noFileImport_addInheritsEdges (rel : String) (g : Graph)
    (classUid : String) (bases : List String)
    (h : ∀ x, (rel, x, "file_import") ∉ g.edges) :
    ∀ x, (rel, x, "file_import") ∉ (addInheritsEdges g classUid bases).edges := by
  unfold addInheritsEdges
  refine noFileImport_foldl rel _ ?_ bases g h
  intro g2 base hg2
  refine noFileImport_foldl rel _ ?_ g2.nodes g2 hg2
  intro g3 kv hg3
  by_cases hm : (kv.2.typ == some "class" && kv.2.displayName == some base) = true
  · simp only [hm, if_pos]
    exact noFileImport_addEdge rel g3 classUid _ "inherits" (Or.inl (by decide)) hg3
  · have hm' : (kv.2.typ == some "class" && kv.2.displayName == some base) = false := by
      simpa using hm
    simpa [hm'] using hg3

theorem noFileImport_processClass (rel relF : String) (g : Graph) (c : ClassDef)
    (h : ∀ x, (rel, x, "file_import") ∉ g.edges) :
    ∀ x, (rel, x, "file_import") ∉ (processClass g relF c).edges := by
  unfold processClass
  refine noFileImport_foldl rel _ ?_ (methodsOf c) _ ?_
  · intro g2 child hg2
    refine noFileImport_trackMethodCalls rel _ child _ _ ?_
    refine noFileImport_trackTypes rel _ child _ ?_
    refine noFileImport_trackVariables rel relF _ child ?_
    refine noFileImport_addEdge rel _ _ _ "has_method" (Or.inl (by decide)) ?_
    exact fun x hx => hg2 x hx
  · refine noFileImport_addInheritsEdges rel _ _ _ ?_
    refine noFileImport_addEdge rel _ relF _ "defined_in" (Or.inl (by decide)) ?_
    exact fun x hx => h x hx

theorem noFileImport_addImportEdge (rel : String) (repoFiles : List String)
    (g : Graph) (src mod : String) (hsrc : src ≠ rel)
    (h : ∀ x, (rel, x, "file_import") ∉ g.edges) :
    ∀ x, (rel, x, "file_import") ∉ (addImportEdge repoFiles g src mod).edges := by
  unfold addImportEdge
  refine noFileImport_foldl rel _ ?_ repoFiles g h
  intro g2 f hg2
  by_cases hb : (basename f == mod ++ ".py") = true
  · simp only [hb, if_pos]
    exact noFileImport_addEdge rel g2 src f "file_import" (Or.inr hsrc) hg2
  · have hb' : (basename f == mod ++ ".py") = false := by simpa using hb
    simpa [hb'] using hg2

theorem noFileImport_addFunctionNodes (rel : String) (p : CodeParser)
    (htab : (aListGet p.functionsByFile rel).getD [] = [])
    (h : ∀ x, (rel, x, "file_import") ∉ p.graph.edges) :
    ∀ x, (rel, x, "file_import") ∉ (addFunctionNodesAndImportEdges p).graph.edges := by
  unfold addFunctionNodesAndImportEdges
  refine noFileImport_foldl rel _ ?_ p.repoFiles p.graph h
  intro g2 relW hg2
  by_cases hrr : relW = rel
  · subst hrr
    rw [htab]
    exact hg2
  · refine noFileImport_foldl rel _ ?_ _ g2 hg2
    intro g3 fpair hg3
    refine noFileImport_foldl rel _ ?_ _ _ ?_
    · intro g4 imp hg4
      exact noFileImport_addImportEdge rel p.repoFiles g4 relW imp.2 hrr hg4
    · refine noFileImport_foldl rel _ ?_ _ _ ?_
      · intro g4 imp hg4
        exact noFileImport_addImportEdge rel p.repoFiles g4 relW imp.2 hrr hg4
      · refine noFileImport_trackTypes rel _ fpair.2 _ ?_
        refine noFileImport_trackVariables rel relW _ fpair.2 ?_
        refine noFileImport_addEdge rel _ relW _ "defined_in" (Or.inl (by decide)) ?_
        exact fun x hx => hg3 x hx

theorem noFileImport_foldlM {α : Type} (rel : String)
    (f : Graph → α → Except String Graph)
    (hf : ∀ g a g', (∀ x, (rel, x, "file_import") ∉ g.edges) → f g a = .ok g' →
      ∀ x, (rel, x, "file_import") ∉ g'.edges) :
    ∀ (l : List α) (g g' : Graph), (∀ x, (rel, x, "file_import") ∉ g.edges) →
      l.foldlM f g = .ok g' → ∀ x, (rel, x, "file_import") ∉ g'.edges := by
  intro l
  induction l with
  | nil =>
      intro g g' h hfold
      have h2 : (Except.ok g : Except String Graph) = Except.ok g' := by
        simpa [List.foldlM, pure, Except.pure] using hfold
      exact Except.ok.inj h2 ▸ h
  | cons a t ih =>
      intro g g' h hfold
      rw [List.foldlM_cons] at hfold
      cases hfa : f g a with
      | error e =>
          rw [hfa] at hfold
          simp only [Bind.bind, Except.bind] at hfold
          exact Except.noConfusion hfold
      | ok g1 =>
          rw [hfa] at hfold
          exact ih g1 g' (hf g a g1 h hfa) hfold

theorem noFileImport_addClassNodes (rel : String) (listing : List RepoFile)
    (p p' : CodeParser)
    (h : ∀ x, (rel, x, "file_import") ∉ p.graph.edges)
    (hstep : addClassNodesAndEdges listing p = .ok p') :
    ∀ x, (rel, x, "file_import") ∉ p'.graph.edges := by
  unfold addClassNodesAndEdges at hstep
  cases hg : p.repoFiles.foldlM
      (fun g rel => do
        let tree ← readParsed listing rel
        pure ((classesOf tree).foldl (fun g c => processClass g rel c) g))
      p.graph with
  | error e =>
      rw [hg] at hstep
      simp only [Bind.bind, Except.bind] at hstep
      exact Except.noConfusion hstep
  | ok gfinal =>
      rw [hg] at hstep
      simp only [Bind.bind, Except.bind, pure, Except.pure] at hstep
      have hp' : { p with graph := gfinal } = p' := Except.ok.inj hstep
      have hfin : ∀ x, (rel, x, "file_import") ∉ gfinal.edges := by
        refine noFileImport_foldlM rel _ ?_ p.repoFiles p.graph gfinal h hg
        intro g a g'' hga hrun
        cases hr : readParsed listing a with
        | error e =>
            rw [hr] at hrun
            simp only [Bind.bind, Except.bind] at hrun
            exact Except.noConfusion hrun
        | ok tree =>
            rw [hr] at hrun
            simp only [Bind.bind, Except.bind, pure, Except.pure] at hrun
            have hg'' : (classesOf tree).foldl (fun g c => processClass g a c) g = g'' :=
              Except.ok.inj hrun
            rw [← hg'']
            refine noFileImport_foldl rel _ ?_ (classesOf tree) g hga
            intro g3 c hg3
            exact noFileImport_processClass rel a g3 c hg3
      rw [← hp']
      exact hfin

theorem noFileImport_resolveCallAndAdd (rel : String) (p : CodeParser) (g : Graph)
    (callerUid : String) (ce : PExpr) (relW : String) (cc : Option String)
    (h : ∀ x, (rel, x, "file_import") ∉ g.edges) :
    ∀ x, (rel, x, "file_import") ∉ (resolveCallAndAdd p g callerUid ce relW cc).edges := by
  unfold resolveCallAndAdd
  cases resolveCallee p ce relW cc with
  | none => exact h
  | some uid =>
      by_cases hn : g.hasNode uid = true
      · simp only [hn, if_pos]
        exact noFileImport_addEdge rel g callerUid uid "calls" (Or.inl (by decide)) h
      · have hn' : g.hasNode uid = false := by simpa using hn
        simpa [hn'] using h

theorem noFileImport_resolveCalls (rel : String) (listing : List RepoFile)
    (p p' : CodeParser)
    (h : ∀ x, (rel, x, "file_import") ∉ p.graph.edges)
    (hstep : resolveFunctionCalls listing p = .ok p') :
    ∀ x, (rel, x, "file_import") ∉ p'.graph.edges := by
  unfold resolveFunctionCalls at hstep
  simp only [] at hstep
  have h1 : ∀ x, (rel, x, "file_import") ∉
      (p.functionsByFile.foldl
        (fun g relFuncs =>
          relFuncs.2.foldl
            (fun g fpair =>
              let callerUid := relFuncs.1 ++ "::" ++ fpair.1
              (walkCalls fpair.2).foldl
                (fun g ce => resolveCallAndAdd p g callerUid ce relFuncs.1 none)
                g)
            g)
        p.graph).edges := by
    refine noFileImport_foldl rel _ ?_ _ _ h
    intro g2 relFuncs hg2
    refine noFileImport_foldl rel _ ?_ _ _ hg2
    intro g3 fpair hg3
    refine noFileImport_foldl rel _ ?_ _ _ hg3
    intro g4 ce hg4
    exact noFileImport_resolveCallAndAdd rel p g4 _ ce relFuncs.1 none hg4
  cases hg : p.repoFiles.foldlM
      (fun (g : Graph) (rel : String) => do
        let tree ← readParsed listing rel
        pure
          ((classesOf tree).foldl
            (fun (g : Graph) (c : ClassDef) =>
              (methodsOf c).foldl
                (fun (g : Graph) (child : FunctionDef) =>
                  let callerUid := rel ++ "::" ++ c.name ++ "::" ++ child.name
                  (walkCalls child).foldl
                    (fun g ce => resolveCallAndAdd p g callerUid ce rel (some c.name))
                    g)
                g)
            g))
      (p.functionsByFile.foldl
        (fun g relFuncs =>
          relFuncs.2.foldl
            (fun g fpair =>
              let callerUid := relFuncs.1 ++ "::" ++ fpair.1
              (walkCalls fpair.2).foldl
                (fun g ce => resolveCallAndAdd p g callerUid ce relFuncs.1 none)
                g)
            g)
        p.graph) with
  | error e =>
      rw [hg] at hstep
      simp only [Bind.bind, Except.bind] at hstep
      exact Except.noConfusion hstep
  | ok gfinal =>
      rw [hg] at hstep
      simp only [Bind.bind, Except.bind, pure, Except.pure] at hstep
      have hp' : { p with graph := gfinal } = p' := Except.ok.inj hstep
      have hfin : ∀ x, (rel, x, "file_import") ∉ gfinal.edges := by
        refine noFileImport_foldlM rel _ ?_ p.repoFiles _ gfinal h1 hg
        intro g a g'' hga hrun
        cases hr : readParsed listing a with
        | error e =>
            rw [hr] at hrun
            simp only [Bind.bind, Except.bind] at hrun
            exact Except.noConfusion hrun
        | ok tree =>
            rw [hr] at hrun
            simp only [Bind.bind, Except.bind, pure, Except.pure] at hrun
            rw [← Except.ok.inj hrun]
            refine noFileImport_foldl rel _ ?_ (classesOf tree) g hga
            intro g3 c hg3
            refine noFileImport_foldl rel _ ?_ (methodsOf c) g3 hg3
            intro g4 child hg4
            refine noFileImport_foldl rel _ ?_ (walkCalls child) g4 hg4
            intro g5 ce hg5
            exact noFileImport_resolveCallAndAdd rel p g5 _ ce a (some c.name) hg5
      rw [← hp']
      exact hfin

theorem collectFiles_spec (builtins : List String) (listing : List RepoFile) :
    (collectFiles builtins listing).functionsByFile = [] ∧
    (collectFiles builtins listing).graph.edges = [] := by
  unfold collectFiles
  have haux : ∀ (l : List RepoFile) (p : CodeParser),
      ((l.foldl (fun p f =>
        if strEndsWith f.path ".py" then
          { p with repoFiles := p.repoFiles ++ [f.path],
                   graph := p.graph.addNode f.path "file" f.path }
        else p) p).functionsByFile = p.functionsByFile ∧
       (l.foldl (fun p f =>
        if strEndsWith f.path ".py" then
          { p with repoFiles := p.repoFiles ++ [f.path],
                   graph := p.graph.addNode f.path "file" f.path }
        else p) p).graph.edges = p.graph.edges) := by
    intro l
    induction l with
    | nil => intro p; exact ⟨rfl, rfl⟩
    | cons f t ih =>
        intro p
        rw [List.foldl_cons]
        by_cases hf : strEndsWith f.path ".py" = true
        · rw [if_pos hf]
          exact ⟨(ih _).1, (ih _).2⟩
        · rw [if_neg hf]
          exact ih p
  exact ⟨(haux listing _).1, (haux listing _).2⟩

theorem indexModule_functions (tree : PyModule) (h : moduleFunctions tree = []) :
    (indexModule tree).1 = [] := by
  unfold moduleFunctions at h
  unfold indexModule
  have haux : ∀ (l : List TopItem)
      (acc : List (String × FunctionDef) × List (String × String) × List (String × String)),
      (l.filterMap (fun item => match item with | .funcDef f => some f | _ => none) = []) →
      ((l.foldl (fun acc item =>
        match item with
        | .funcDef f => (updAList acc.1 f.name f, acc.2.1, acc.2.2)
        | .importStmt names =>
            (acc.1,
             names.foldl
               (fun imps nm =>
                 let mod := firstSeg nm.1
                 let asname := nm.2.getD mod
                 updAList imps asname mod)
               acc.2.1,
             acc.2.2)
        | .importFrom module names =>
            (acc.1, acc.2.1,
             match module with
             | some m =>
                 let mod := firstSeg m
                 names.foldl
                   (fun imps nm => updAList imps (nm.2.getD nm.1) mod)
                   acc.2.2
             | none => acc.2.2)
        | _ => acc) acc).1 = acc.1) := by
    intro l
    induction l with
    | nil => intro acc _; rfl
    | cons item t ih =>
        intro acc hl
        rw [List.foldl_cons]
        cases item with
        | funcDef f => simp [List.filterMap_cons] at hl
        | classDef c =>
            rw [List.filterMap_cons] at hl
            exact ih acc hl
        | importStmt names =>
            rw [List.filterMap_cons] at hl
            exact ih _ hl
        | importFrom module names =>
            rw [List.filterMap_cons] at hl
            exact ih _ hl
        | other s =>
            rw [List.filterMap_cons] at hl
            exact ih acc hl
  exact haux tree ([], [], []) h

theorem index_table_spec (listing : List RepoFile) (rel : String) (tree : PyModule)
    (hread : readParsed listing rel = .ok tree) (hnofuncs : moduleFunctions tree = []) :
    ∀ (rs : List String) (p : CodeParser),
      (aListGet p.functionsByFile rel).getD [] = [] →
      ((rs.foldl (fun p rel =>
        match readParsed listing rel with
        | .error _ => p
        | .ok tree =>
            let tables := indexModule tree
            { p with
                functionsByFile := updAList p.functionsByFile rel tables.1,
                importsByFile := updAList p.importsByFile rel tables.2.1,
                fromImportsByFile := updAList p.fromImportsByFile rel tables.2.2 }) p).graph =
        p.graph ∧
       (aListGet (rs.foldl (fun p rel =>
        match readParsed listing rel with
        | .error _ => p
        | .ok tree =>
            let tables := indexModule tree
            { p with
                functionsByFile := updAList p.functionsByFile rel tables.1,
                importsByFile := updAList p.importsByFile rel tables.2.1,
                fromImportsByFile := updAList p.fromImportsByFile rel tables.2.2 }) p
        ).functionsByFile rel).getD [] = []) := by
  intro rs
  induction rs with
  | nil => intro p hp; exact ⟨rfl, hp⟩
  | cons r rs' ih =>
      intro p hp
      rw [List.foldl_cons]
      cases hr : readParsed listing r with
      | error e =>
          simp only [hr]
          exact ih p hp
      | ok tree' =>
          simp only [hr]
          refine ih _ ?_
          by_cases hrr : r = rel
          · subst hrr
            rw [hread] at hr
            have ht : tree = tree' := Except.ok.inj hr
            show (aListGet (updAList p.functionsByFile r (indexModule tree').1) r).getD [] = []
            rw [aListGet_updAList_self]
            show (indexModule tree').1 = []
            exact indexModule_functions tree' (by rw [← ht]; exact hnofuncs)
          · show (aListGet (updAList p.functionsByFile r (indexModule tree').1) rel).getD [] = []
            rw [aListGet_updAList_ne _ _ _ _ (fun hc => hrr hc.symm)]
            exact hp

/-- C10: a parseable file with no top-level function contributes no
`file_import` edges: the import-edge loops of
`_add_function_nodes_and_import_edges` are nested inside the iteration
over the file's top-level functions, and no other pass emits a
`file_import` label, so if `parse` succeeds, no `file_import` edge
leaves such a file in the finished graph. -/
theorem c10_no_import_edges_without_functions (builtins : List String)
    (listing : List RepoFile) (g : Graph) (rel : String) (tree : PyModule)
    (hparse : parse builtins listing = .ok g)
    (hread : readParsed listing rel = .ok tree)
    (hnofuncs : moduleFunctions tree = []) :
    ∀ x, (rel, x, "file_import") ∉ g.edges := by
  unfold parse at hparse
  simp only [] at hparse
  cases hc : addClassNodesAndEdges listing
      (addFunctionNodesAndImportEdges
        (indexFunctionsAndImports listing (collectFiles builtins listing))) with
  | error e =>
      rw [hc] at hparse
      simp only [Bind.bind, Except.bind] at hparse
      exact Except.noConfusion hparse
  | ok p4 =>
      rw [hc] at hparse
      simp only [Bind.bind, Except.bind] at hparse
      cases hrc : resolveFunctionCalls listing p4 with
      | error e =>
          rw [hrc] at hparse
          simp only [Except.bind] at hparse
          exact Except.noConfusion hparse
      | ok p5 =>
          rw [hrc] at hparse
          simp only [Except.bind, pure, Except.pure] at hparse
          have hg : p5.graph = g := Except.ok.inj hparse
          rcases collectFiles_spec builtins listing with ⟨hfn1, hed1⟩
          have hidx := index_table_spec listing rel tree hread hnofuncs
            (collectFiles builtins listing).repoFiles
            (collectFiles builtins listing) (by rw [hfn1]; rfl)
          have h2graph :
              (indexFunctionsAndImports listing (collectFiles builtins listing)).graph =
                (collectFiles builtins listing).graph := hidx.1
          have h2tab :
              (aListGet (indexFunctionsAndImports listing
                  (collectFiles builtins listing)).functionsByFile rel).getD [] = [] :=
            hidx.2
          have hP2 : ∀ x, (rel, x, "file_import") ∉
              (indexFunctionsAndImports listing (collectFiles builtins listing)).graph.edges := by
            intro x hx
            rw [h2graph, hed1] at hx
            exact List.not_mem_nil _ hx
          have hP3 := noFileImport_addFunctionNodes rel
            (indexFunctionsAndImports listing (collectFiles builtins listing)) h2tab hP2
          have hP4 := noFileImport_addClassNodes rel listing _ p4 hP3 hc
          have hP5 := noFileImport_resolveCalls rel listing p4 p5 hP4 hrc
          rw [← hg]
          exact hP5

/-- Witness for `c10_no_import_edges_without_functions` on a concrete
tree: `a.py` imports `b` (and `b.py` exists) but declares no top-level
function, so the successful build has no `file_import` edge out of
`a.py`. -/
theorem c10_no_import_edges_without_functions_witness :
    ("a.py", "b.py", "file_import") ∉
      ((parse pyBuiltinsDemo listingImportNoFuncs).toOption.getD Graph.empty).edges :=
  c10_no_import_edges_without_functions pyBuiltinsDemo listingImportNoFuncs
    ((parse pyBuiltinsDemo listingImportNoFuncs).toOption.getD Graph.empty) "a.py"
    [.importStmt [("b", none)], .classDef ⟨"C", [], []⟩] rfl rfl rfl "b.py" 
